import Mathlib

/-! Verification of the ASAPy covariance-manipulation core
(`ASAPy/CovManipulation.py`): conversion between correlation and covariance
matrices, the Gill–Murray–Wright modified Cholesky factorization
`gmw_cholesky`, and the rank-matching retry loop of `lhs_normal_sample_corr`.
Matrices are embedded as functions `Fin n → Fin n → ℝ`; the floating point
arithmetic of the source is idealized as real arithmetic, and `x ** 0.5` on a
nonnegative float becomes `Real.sqrt`. -/

namespace ASAPy

noncomputable section

/-- Square-matrix product, mirroring `np.dot` for `n × n` matrices. -/
def matMul {n : ℕ} (A B : Fin n → Fin n → ℝ) : Fin n → Fin n → ℝ :=
  fun i k => ∑ x, A i x * B x k

/-- Matrix transpose (`A.T`). -/
def matT {n : ℕ} (A : Fin n → Fin n → ℝ) : Fin n → Fin n → ℝ :=
  fun i k => A k i

/-- Lines 24–33 of `CovManipulation.py`: `cov = np.diag(std**2)`, then the loop
`for i, for j in range(i+1, n): cov[i,j] = corr[i,j]*std[i]*std[j]` fills the
strict upper triangle, then `cov = cov + cov.T - np.diag(np.diag(cov))`. -/
def correlation_to_cov {n : ℕ} (std : Fin n → ℝ) (corr : Fin n → Fin n → ℝ) :
    Fin n → Fin n → ℝ :=
  let cov0 : Fin n → Fin n → ℝ := fun i j => if i = j then (std i) ^ 2 else 0
  let cov1 : Fin n → Fin n → ℝ :=
    fun i j => if i < j then corr i j * std i * std j else cov0 i j
  fun i j => cov1 i j + cov1 j i - (if i = j then cov1 i j else 0)

/-- Lines 35–45 of `CovManipulation.py`: `corr = np.diag(np.ones(n))`, then the
loop `corr[i,j] = cov[i,j] / np.abs(cov[i,i]*cov[j,j]) ** 0.5` fills the strict
upper triangle, then `corr = corr + corr.T - np.diag(np.diag(corr))`. -/
def cov_to_correlation {n : ℕ} (cov : Fin n → Fin n → ℝ) :
    Fin n → Fin n → ℝ :=
  let corr0 : Fin n → Fin n → ℝ := fun i j => if i = j then 1 else 0
  let corr1 : Fin n → Fin n → ℝ :=
    fun i j => if i < j then cov i j / Real.sqrt |cov i i * cov j j| else corr0 i j
  fun i j => corr1 i j + corr1 j i - (if i = j then corr1 i j else 0)

/-- Entry lookup in a row-major list-of-rows matrix; an out-of-range access
is the `IndexError` NumPy raises there. -/
def getEntry (mat : List (List ℝ)) (i j : ℕ) : Except String ℝ :=
  match mat[i]? with
  | some row =>
    match row[j]? with
    | some x => Except.ok x
    | none => Except.error "IndexError"
  | none => Except.error "IndexError"

/-- One entry of the `correlation_to_cov` output in the list-of-rows model:
the diagonal is `std[i]**2`; the strict upper triangle reads `corr[i][j]`;
the strict lower triangle is the mirror of the upper read, exactly as the
upper-fill-plus-mirror code produces.  The loops of the source run over
`range(len(std))`, so the output shape is `len(std) × len(std)` whatever the
shape of `corr`. -/
def covEntryArr (std : List ℝ) (corr : List (List ℝ)) (i j : ℕ) : Except String ℝ :=
  if i = j then Except.ok ((std.getD i 0) ^ 2)
  else
    match getEntry corr (min i j) (max i j) with
    | Except.ok c => Except.ok (c * std.getD (min i j) 0 * std.getD (max i j) 0)
    | Except.error s => Except.error s

/-- Effectful map over a list that stops at the first error, as a Python
loop stops at the first raised exception. -/
def exceptMap {α β : Type} (f : α → Except String β) : List α → Except String (List β)
  | [] => Except.ok []
  | a :: rest =>
    match f a with
    | Except.ok b =>
      match exceptMap f rest with
      | Except.ok bs => Except.ok (b :: bs)
      | Except.error s => Except.error s
    | Except.error s => Except.error s

/-- Lines 24–33 of `CovManipulation.py` in the list-of-rows model, tracking
shapes and index errors: both fill loops run over `range(len(std))`. -/
def correlation_to_cov_arr (std : List ℝ) (corr : List (List ℝ)) :
    Except String (List (List ℝ)) :=
  exceptMap
    (fun i => exceptMap (fun j => covEntryArr std corr i j) (List.range std.length))
    (List.range std.length)

/-- IEEE double machine epsilon, `np.finfo(float).eps = 2**-52` (lines 47–48). -/
def _EPS : ℝ := 2 ^ (-(52 : ℤ))

/-- Lines 83–86 of `CovManipulation.py`: `gamma`, the running maximum of the
diagonal magnitudes `|A[i,i]|`, starting from `0.0`. -/
def gmwGamma {n : ℕ} (A : Fin n → Fin n → ℝ) : ℝ :=
  (List.finRange n).foldl (fun g i => max |A i i| g) 0

/-- Lines 83–88: `xi`, the running maximum of the strict-upper-triangle
magnitudes `|A[i,j]|` (`j > i`), starting from `0.0`. -/
def gmwXi {n : ℕ} (A : Fin n → Fin n → ℝ) : ℝ :=
  (List.finRange n).foldl
    (fun x i => ((List.finRange n).filter (fun j => i < j)).foldl
      (fun y j => max |A i j| y) x) 0

/-- Line 91: `delta = EPS * max(gamma + xi, 1)`. -/
def gmwDelta {n : ℕ} (A : Fin n → Fin n → ℝ) : ℝ :=
  _EPS * max (gmwGamma A + gmwXi A) 1

/-- Lines 92–95: `beta`, with the explicit `n == 1` branch that avoids the
division by `sqrt(n**2 - 1)`. -/
def gmwBeta {n : ℕ} (A : Fin n → Fin n → ℝ) : ℝ :=
  if n = 1 then Real.sqrt (max (gmwGamma A) _EPS)
  else Real.sqrt (max (max (gmwGamma A) (gmwXi A / Real.sqrt ((n : ℝ) ^ 2 - 1))) _EPS)

/-- The mutable state of the main loop of `gmw_cholesky` (lines 97–101):
working matrix `a`, factor rows `r`, shifts `e`, permutation `P`. -/
structure GmwState (n : ℕ) where
  a : Fin n → Fin n → ℝ
  r : Fin n → Fin n → ℝ
  e : Fin n → ℝ
  P : Fin n → Fin n → ℝ

/-- Lines 107–110: the pivot search; `q` starts at `j` and is replaced by each
later `i` with `|a[i,i]| >= |a[q,q]|`. -/
def gmwPivot {n : ℕ} (a : Fin n → Fin n → ℝ) (j : Fin n) : Fin n :=
  ((List.finRange n).filter (fun i => j < i)).foldl
    (fun q i => if |a i i| ≥ |a q q| then i else q) j

/-- Lines 115–126: the temporary permutation matrix `p`, the identity with
rows `j` and `q` interchanged (`p = p.T`). -/
def swapMat {n : ℕ} (j q : Fin n) : Fin n → Fin n → ℝ :=
  fun i k => if k = Equiv.swap j q i then 1 else 0

/-- Lines 113–130: interchange rows/columns `j` and `q`: columns `j`, `q` of
`P` are swapped in place, `a` becomes `np.dot(p, np.dot(a, p))` and `r`
becomes `np.dot(r, p)`. -/
def gmwSwap {n : ℕ} (st : GmwState n) (j q : Fin n) : GmwState n where
  a := matMul (swapMat j q) (matMul st.a (swapMat j q))
  r := matMul st.r (swapMat j q)
  e := st.e
  P := fun i k => st.P i (Equiv.swap j q k)

/-- Lines 133–136: `theta_j`, the running maximum of `|a[j,i]|` for `i > j`
from `0.0` (the `if j < n-1` guard only skips an empty loop). -/
def gmwTheta {n : ℕ} (a : Fin n → Fin n → ℝ) (j : Fin n) : ℝ :=
  ((List.finRange n).filter (fun i => j < i)).foldl (fun t i => max t |a j i|) 0

/-- Line 137: the stabilized pivot
`dj = max(abs(a[j,j]), (theta_j/beta)**2, delta)`. -/
def gmwD {n : ℕ} (beta delta : ℝ) (a : Fin n → Fin n → ℝ) (j : Fin n) : ℝ :=
  max (max |a j j| ((gmwTheta a j / beta) ^ 2)) delta

/-- Lines 143–145: row `j` of `r` after the elimination step:
`r[j,j] = sqrt(dj)`, then `r[j,i] = a[j,i]/r[j,j]` for `i > j`; entries left
of the diagonal are untouched. -/
def gmwRj {n : ℕ} (beta delta : ℝ) (st : GmwState n) (j : Fin n) : Fin n → ℝ :=
  fun i =>
    if i = j then Real.sqrt (gmwD beta delta st.a j)
    else if j < i then st.a j i / Real.sqrt (gmwD beta delta st.a j)
    else st.r j i

/-- Lines 137–147: the elimination step for column `j`: the stabilized pivot
`dj`, the shift `e[j] = dj - a[j,j]`, row `j` of `r`, and the trailing update
`a[i,k] = a[k,i] = a[k,i] - r[j,i]*r[j,k]` for `j < k <= i`: the value read,
`a[k,i]` with `k <= i`, is the upper-triangle entry, and it is written back
to both positions. -/
def gmwElim {n : ℕ} (beta delta : ℝ) (st : GmwState n) (j : Fin n) : GmwState n where
  a := fun x y => if j < x ∧ j < y
      then st.a (min x y) (max x y) - gmwRj beta delta st j x * gmwRj beta delta st j y
      else st.a x y
  r := fun l i => if l = j then gmwRj beta delta st j i else st.r l i
  e := Function.update st.e j (gmwD beta delta st.a j - st.a j j)
  P := st.P

/-- One iteration of the main loop (lines 104–147): pivot selection, the
`if q != j` interchange, then elimination. -/
def gmwStep {n : ℕ} (beta delta : ℝ) (st : GmwState n) (j : Fin n) : GmwState n :=
  gmwElim beta delta
    (if gmwPivot st.a j ≠ j then gmwSwap st j (gmwPivot st.a j) else st) j

/-- Lines 97–101: the initial loop state: `a = 1.0*A` (a value-identical
copy), `r = 0.0*A` (the zero matrix), `e = zeros(n)`, `P = eye(n)`. -/
def gmwInit {n : ℕ} (A : Fin n → Fin n → ℝ) : GmwState n :=
  { a := A, r := fun _ _ => 0, e := fun _ => 0, P := fun i k => if i = k then 1 else 0 }

/-- The state after the main loop `for j in range(n)` (lines 104–147). -/
def gmwFinal {n : ℕ} (A : Fin n → Fin n → ℝ) : GmwState n :=
  (List.finRange n).foldl (gmwStep (gmwBeta A) (gmwDelta A)) (gmwInit A)

/-- Lines 50–150: `gmw_cholesky(A)` returns `(P, L, e)` with `L = r.T`
(line 150). -/
def gmw_cholesky {n : ℕ} (A : Fin n → Fin n → ℝ) :
    (Fin n → Fin n → ℝ) × (Fin n → Fin n → ℝ) × (Fin n → ℝ) :=
  ((gmwFinal A).P, matT (gmwFinal A).r, (gmwFinal A).e)

/-- A permutation matrix: the rows are indicator rows of a permutation. -/
def IsPermMatrix {n : ℕ} (P : Fin n → Fin n → ℝ) : Prop :=
  ∃ σ : Equiv.Perm (Fin n), ∀ i k, P i k = if k = σ i then 1 else 0

/-- `np.diag(e)`. -/
def diagE {n : ℕ} (e : Fin n → ℝ) : Fin n → Fin n → ℝ :=
  fun i k => if i = k then e i else 0

/-- Strict positive definiteness, phrased through the quadratic form. -/
def PosDefQF {n : ℕ} (A : Fin n → Fin n → ℝ) : Prop :=
  ∀ x : Fin n → ℝ, x ≠ 0 → 0 < ∑ i, ∑ k, x i * A i k * x k

/-- The indefinite example matrix of the spec (also in the source comment at
line 78): `A = [[4, 2, 1], [2, 6, 3], [1, 3, -0.004]]`. -/
def A3 : Fin 3 → Fin 3 → ℝ := ![![4, 2, 1], ![2, 6, 3], ![1, 3, -0.004]]

/-- The positive-definiteness invariant of the `gmw_cholesky` loop on a
positive definite input: the trailing working block stays positive definite,
its diagonal stays bounded by `gamma`, and every processed shift is at most
`delta`. -/
def GmwPD {n : ℕ} (A : Fin n → Fin n → ℝ) (j : ℕ) (st : GmwState n) : Prop :=
  (∀ x : Fin n → ℝ, x ≠ 0 → (∀ i : Fin n, (i : ℕ) < j → x i = 0) →
    0 < ∑ i, ∑ k, x i * st.a i k * x k) ∧
  (∀ i : Fin n, j ≤ (i : ℕ) → st.a i i ≤ gmwGamma A) ∧
  (∀ l : Fin n, (l : ℕ) < j → st.e l ≤ gmwDelta A)

/-- The loop invariant of `gmw_cholesky` after the first `j` columns are
processed: the working matrix is symmetric; `P` is the permutation matrix of
some `σ`, and the processed rows of `r`, the shifts `e` and the untouched
trailing block of `a` reconstruct the pivoted input; rows `≥ j` of `r` are
still zero; processed rows of `r` are upper triangular with positive
diagonal; processed shifts are nonnegative. -/
def GmwInv {n : ℕ} (A : Fin n → Fin n → ℝ) (j : ℕ) (st : GmwState n) : Prop :=
  (∀ x y, st.a x y = st.a y x) ∧
  (∃ σ : Equiv.Perm (Fin n),
    (∀ i k, st.P i k = if k = σ i then 1 else 0) ∧
    (∀ x y : Fin n,
      A (σ.symm x) (σ.symm y) + (if x = y ∧ (x : ℕ) < j then st.e x else 0)
      = (∑ l : Fin n, if (l : ℕ) < j then st.r l x * st.r l y else 0)
        + (if j ≤ (x : ℕ) ∧ j ≤ (y : ℕ) then st.a x y else 0))) ∧
  (∀ (l x : Fin n), j ≤ (l : ℕ) → st.r l x = 0) ∧
  (∀ (l x : Fin n), (l : ℕ) < j → x < l → st.r l x = 0) ∧
  (∀ l : Fin n, (l : ℕ) < j → 0 < st.r l l) ∧
  (∀ l : Fin n, (l : ℕ) < j → 0 ≤ st.e l)

/-- Line 262: `r = np.argsort(dependent_samples[:, j])` — a list of all row
indices ordered so that the column is nondecreasing along it.  `np.argsort`
returns some permutation of the indices sorting the values; it is modelled
with insertion sort, and only the sorting-permutation property is used. -/
def argsortF {m : ℕ} (v : Fin m → ℝ) : List (Fin m) :=
  List.insertionSort (fun i k => v i ≤ v k) (List.finRange m)

/-- Lines 263–264: `rank = zeros; rank[r] = np.array(range(num_samples))`
makes `rank` the positional inverse of `r`: `rank[i]` is the position of row
index `i` inside `r`. -/
def rankOf {m : ℕ} (v : Fin m → ℝ) (i : Fin m) : ℕ :=
  (argsortF v).indexOf i

/-- Line 265: `rs = np.sort(samples[:, j])`, the sorted column values. -/
def sortedColumn {m : ℕ} (col : Fin m → ℝ) : List ℝ :=
  List.insertionSort (fun x y => x ≤ y) ((List.finRange m).map col)

/-- Line 266: `z[:, j] = np.multiply(rs[rank], std_dev[j]) + mean_values[j]`;
entry `i` of the re-ranked column is `rs[rank[i]] * std_dev[j] + mean_values[j]`.
The upstream inputs `samples` (the stratified draws) and `dependent_samples`
(their image under the `np.dot(P, np.linalg.inv(Q)).T` map built from the two
factorizations) enter as arbitrary matrices. -/
def rerank_column {m nv : ℕ} (samples dependent : Fin m → Fin nv → ℝ)
    (std_dev mean_values : Fin nv → ℝ) (j : Fin nv) (i : Fin m) : ℝ :=
  (sortedColumn (fun i2 => samples i2 j)).getD (rankOf (fun i2 => dependent i2 j) i) 0
    * std_dev j + mean_values j

/-- Line 257 of `CovManipulation.py`: `ntry = 1`. -/
def ntry : ℕ := 1

/-- Line 258 of `CovManipulation.py`: the initial sentinel `amin = 1.8e308`. -/
def amin0 : ℝ := 1.8e308

/-- Lines 260–274: the body of `for il in range(ntry)`.  Every pass recomputes
the same re-ranked matrix `z` and the same score `ae` — both depend only on
`samples` and `dependent_samples`, which never change across passes — so the
loop is modelled with the pass-invariant `z` and `ae` as parameters.  `best`
holds `zb` once it has been assigned; a pass whose `ae` fails the `ae < amin`
test raises `Exception('Could not order samples ae=...')`. -/
def retryGo {α : Type} (z : α) (ae : ℝ) : ℕ → ℝ → Option α → Except String (Option α)
  | 0, _, best => Except.ok best
  | k + 1, amin, _ =>
    if ae < amin then retryGo z ae k ae (some z)
    else Except.error "Could not order samples"

/-- The complete retry loop of `lhs_normal_sample_corr` (lines 257–278)
followed by `return zb`; if no pass ever assigned `zb`, the `return` itself
raises a `NameError`. -/
def rank_loop {α : Type} (z : α) (ae : ℝ) : Except String α :=
  match retryGo z ae ntry amin0 none with
  | Except.ok (some zb) => Except.ok zb
  | Except.ok none => Except.error "NameError"
  | Except.error s => Except.error s

end

/-! ## Theorems about the correlation/covariance converters -/

section ConverterTheorems

theorem corrToCov_diag {n : ℕ} (std : Fin n → ℝ) (corr : Fin n → Fin n → ℝ)
    (i : Fin n) : correlation_to_cov std corr i i = (std i) ^ 2 := by
  simp [correlation_to_cov]

theorem corrToCov_offdiag {n : ℕ} (std : Fin n → ℝ) (corr : Fin n → Fin n → ℝ)
    (hsym : ∀ i j, corr i j = corr j i) (i j : Fin n) (hij : i ≠ j) :
    correlation_to_cov std corr i j = corr i j * std i * std j := by
  rcases lt_or_gt_of_ne hij with h | h
  · simp [correlation_to_cov, h, not_lt_of_gt h, hij, hij.symm, (ne_of_gt h)]
  · have h1 : ¬ i < j := not_lt_of_gt h
    have h2 : j ≠ i := ne_of_lt h
    simp only [correlation_to_cov, if_neg h1, if_neg hij, if_pos h, if_neg h2]
    rw [hsym j i]
    ring

theorem corrToCov_symm {n : ℕ} (std : Fin n → ℝ) (corr : Fin n → Fin n → ℝ)
    (i j : Fin n) :
    correlation_to_cov std corr i j = correlation_to_cov std corr j i := by
  by_cases hij : i = j
  · subst hij; ring_nf
  · have hji : j ≠ i := fun h => hij h.symm
    simp only [correlation_to_cov, if_neg hij, if_neg hji]
    ring

theorem covToCorr_diag {n : ℕ} (cov : Fin n → Fin n → ℝ) (i : Fin n) :
    cov_to_correlation cov i i = 1 := by
  simp [cov_to_correlation]

theorem covToCorr_offdiag {n : ℕ} (cov : Fin n → Fin n → ℝ)
    (hsym : ∀ i j, cov i j = cov j i) (i j : Fin n) (hij : i ≠ j) :
    cov_to_correlation cov i j = cov i j / Real.sqrt |cov i i * cov j j| := by
  rcases lt_or_gt_of_ne hij with h | h
  · have h2 : j ≠ i := ne_of_gt h
    simp [cov_to_correlation, h, not_lt_of_gt h, hij, h2]
  · have h1 : ¬ i < j := not_lt_of_gt h
    have h2 : j ≠ i := ne_of_lt h
    simp only [cov_to_correlation, if_neg h1, if_neg hij, if_pos h, if_neg h2]
    rw [hsym j i, mul_comm (cov i i) (cov j j)]
    ring

/-- C6: `correlation_to_cov` returns `std[i]^2` on the diagonal for every
input, returns `corr[i,j]*std[i]*std[j]` off the diagonal under the
documented symmetric-`corr` precondition, and its output is exactly
symmetric — equal entries, not merely close — for every input, because the
strict upper triangle is filled and then mirrored. -/
theorem correlation_to_cov_entries {n : ℕ} (std : Fin n → ℝ)
    (corr : Fin n → Fin n → ℝ) :
    (∀ i, correlation_to_cov std corr i i = (std i) ^ 2) ∧
    ((∀ i j, corr i j = corr j i) → ∀ i j, i ≠ j →
      correlation_to_cov std corr i j = corr i j * std i * std j) ∧
    (∀ i j, correlation_to_cov std corr i j = correlation_to_cov std corr j i) :=
  ⟨corrToCov_diag std corr, fun hsym i j hij => corrToCov_offdiag std corr hsym i j hij,
    corrToCov_symm std corr⟩

/-- Witness for C6 at `std = [1, 2]`, `corr = [[1, 1/2], [1/2, 1]]`. -/
theorem correlation_to_cov_entries_witness :
    (∀ i j, (![![(1 : ℝ), 1/2], ![1/2, 1]]) i j = (![![(1 : ℝ), 1/2], ![1/2, 1]]) j i) ∧
    (∀ i, correlation_to_cov ![(1 : ℝ), 2] ![![(1 : ℝ), 1/2], ![1/2, 1]] i i
        = ((![(1 : ℝ), 2]) i) ^ 2) ∧
    (∀ i j, i ≠ j → correlation_to_cov ![(1 : ℝ), 2] ![![(1 : ℝ), 1/2], ![1/2, 1]] i j
        = (![![(1 : ℝ), 1/2], ![1/2, 1]]) i j * (![(1 : ℝ), 2]) i * (![(1 : ℝ), 2]) j) ∧
    (∀ i j, correlation_to_cov ![(1 : ℝ), 2] ![![(1 : ℝ), 1/2], ![1/2, 1]] i j
        = correlation_to_cov ![(1 : ℝ), 2] ![![(1 : ℝ), 1/2], ![1/2, 1]] j i) := by
  have hsym : ∀ i j, (![![(1 : ℝ), 1/2], ![1/2, 1]]) i j = (![![(1 : ℝ), 1/2], ![1/2, 1]]) j i := by
    intro i j; fin_cases i <;> fin_cases j <;> norm_num
  obtain ⟨h1, h2, h3⟩ :=
    correlation_to_cov_entries ![(1 : ℝ), 2] ![![(1 : ℝ), 1/2], ![1/2, 1]]
  exact ⟨hsym, h1, h2 hsym, h3⟩

/-- C7: `cov_to_correlation` forces the diagonal to exactly `1` for every
input, and (for symmetric `cov`) each off-diagonal entry is
`cov[i,j] / sqrt(|cov[i,i]*cov[j,j]|)`; the operation is a total function,
raising nothing, with the absolute value taken under the square root. -/
theorem cov_to_correlation_entries {n : ℕ} (cov : Fin n → Fin n → ℝ) :
    (∀ i, cov_to_correlation cov i i = 1) ∧
    ((∀ i j, cov i j = cov j i) → ∀ i j, i ≠ j →
      cov_to_correlation cov i j = cov i j / Real.sqrt |cov i i * cov j j|) :=
  ⟨covToCorr_diag cov, fun hsym i j hij => covToCorr_offdiag cov hsym i j hij⟩

/-- Witness for C7 at `cov = [[1, 1], [1, 4]]`. -/
theorem cov_to_correlation_entries_witness :
    (∀ i j, (![![(1 : ℝ), 1], ![1, 4]]) i j = (![![(1 : ℝ), 1], ![1, 4]]) j i) ∧
    (∀ i, cov_to_correlation ![![(1 : ℝ), 1], ![1, 4]] i i = 1) ∧
    (∀ i j, i ≠ j → cov_to_correlation ![![(1 : ℝ), 1], ![1, 4]] i j
        = (![![(1 : ℝ), 1], ![1, 4]]) i j /
          Real.sqrt |(![![(1 : ℝ), 1], ![1, 4]]) i i * (![![(1 : ℝ), 1], ![1, 4]]) j j|) := by
  have hsym : ∀ i j, (![![(1 : ℝ), 1], ![1, 4]]) i j = (![![(1 : ℝ), 1], ![1, 4]]) j i := by
    intro i j; fin_cases i <;> fin_cases j <;> norm_num
  obtain ⟨h1, h2⟩ := cov_to_correlation_entries ![![(1 : ℝ), 1], ![1, 4]]
  exact ⟨hsym, h1, h2 hsym⟩

/-- C10: the converters read only the strict upper triangle (plus, for
`cov_to_correlation`, the diagonal) of their matrix argument: inputs agreeing
there produce identical outputs regardless of their lower triangles. -/
theorem converters_read_upper_triangle_only {n : ℕ} (std : Fin n → ℝ)
    (corr corr' cov cov' : Fin n → Fin n → ℝ)
    (hcorr : ∀ i j, i < j → corr i j = corr' i j)
    (hcov : ∀ i j, i ≤ j → cov i j = cov' i j) :
    correlation_to_cov std corr = correlation_to_cov std corr' ∧
    cov_to_correlation cov = cov_to_correlation cov' := by
  have hd : ∀ k : Fin n, cov k k = cov' k k := fun k => hcov k k le_rfl
  constructor
  · funext i j
    by_cases h1 : i < j
    · have hij : i ≠ j := ne_of_lt h1
      have hji : j ≠ i := fun h => hij h.symm
      have h2 : ¬ j < i := asymm h1
      simp only [correlation_to_cov, if_pos h1, if_neg h2, if_neg hij, if_neg hji]
      rw [hcorr i j h1]
    · by_cases h2 : j < i
      · have hij : i ≠ j := fun h => (ne_of_lt h2) h.symm
        have hji : j ≠ i := ne_of_lt h2
        simp only [correlation_to_cov, if_pos h2, if_neg h1, if_neg hij, if_neg hji]
        rw [hcorr j i h2]
      · have hij : i = j := le_antisymm (not_lt.1 h2) (not_lt.1 h1)
        subst hij
        simp [correlation_to_cov]
  · funext i j
    by_cases h1 : i < j
    · have hij : i ≠ j := ne_of_lt h1
      have hji : j ≠ i := fun h => hij h.symm
      have h2 : ¬ j < i := asymm h1
      simp only [cov_to_correlation, if_pos h1, if_neg h2, if_neg hij, if_neg hji]
      rw [hcov i j (le_of_lt h1), hd i, hd j]
    · by_cases h2 : j < i
      · have hij : i ≠ j := fun h => (ne_of_lt h2) h.symm
        have hji : j ≠ i := ne_of_lt h2
        simp only [cov_to_correlation, if_pos h2, if_neg h1, if_neg hij, if_neg hji]
        rw [hcov j i (le_of_lt h2), hd i, hd j]
      · have hij : i = j := le_antisymm (not_lt.1 h2) (not_lt.1 h1)
        subst hij
        simp [cov_to_correlation]

/-- Witness for C10: matrices agreeing above the diagonal but differing
below it give identical converter outputs. -/
theorem converters_read_upper_triangle_only_witness :
    correlation_to_cov ![(1 : ℝ), 2] ![![(1 : ℝ), 1/2], ![1/2, 1]]
      = correlation_to_cov ![(1 : ℝ), 2] ![![(7 : ℝ), 1/2], ![9, 3]] ∧
    cov_to_correlation ![![(1 : ℝ), 1], ![1, 4]]
      = cov_to_correlation ![![(1 : ℝ), 1], ![5, 4]] := by
  refine converters_read_upper_triangle_only ![(1 : ℝ), 2] _ _ _ _ ?_ ?_
  · intro i j hij
    fin_cases i <;> fin_cases j <;> first | rfl | exact absurd hij (by norm_num)
  · intro i j hij
    fin_cases i <;> fin_cases j <;> first | rfl | exact absurd hij (by norm_num)

/-- C4: for a positive standard-deviation vector and a symmetric,
unit-diagonal correlation matrix with entries in `[-1, 1]`, converting to
covariance and back reproduces the correlation matrix exactly (the real-number
idealization of reproduction "to floating-point tolerance"). -/
theorem cov_correlation_round_trip {n : ℕ} (std : Fin n → ℝ)
    (corr : Fin n → Fin n → ℝ) (hpos : ∀ i, 0 < std i)
    (hsym : ∀ i j, corr i j = corr j i) (hdiag : ∀ i, corr i i = 1)
    (hrange : ∀ i j, |corr i j| ≤ 1) :
    cov_to_correlation (correlation_to_cov std corr) = corr := by
  have hD := corrToCov_diag std corr
  have hO := corrToCov_offdiag std corr hsym
  have hd1 := covToCorr_diag (correlation_to_cov std corr)
  funext i j
  by_cases hij : i = j
  · subst hij; rw [hd1 i, hdiag i]
  · have key : ∀ a b : Fin n, a < b →
        cov_to_correlation (correlation_to_cov std corr) a b = corr a b := by
      intro a b hab
      have hne : a ≠ b := ne_of_lt hab
      have hcc : Real.sqrt |correlation_to_cov std corr a a * correlation_to_cov std corr b b|
          = std a * std b := by
        rw [hD a, hD b]
        have : |(std a) ^ 2 * (std b) ^ 2| = (std a * std b) ^ 2 := by
          rw [abs_of_nonneg (by positivity)]; ring
        rw [this, Real.sqrt_sq (mul_pos (hpos a) (hpos b)).le]
      have hba : b ≠ a := fun h => hne h.symm
      simp only [cov_to_correlation, if_pos hab, if_neg hne,
        if_neg (not_lt_of_gt hab), if_neg hba]
      rw [hO a b hne, hcc]
      have ha : std a ≠ 0 := ne_of_gt (hpos a)
      have hb : std b ≠ 0 := ne_of_gt (hpos b)
      field_simp
      ring
    rcases lt_or_gt_of_ne hij with h | h
    · exact key i j h
    · calc cov_to_correlation (correlation_to_cov std corr) i j
          = cov_to_correlation (correlation_to_cov std corr) j i := by
            simp only [cov_to_correlation, if_neg hij,
              if_neg (fun hh : j = i => hij hh.symm)]; ring
        _ = corr j i := key j i h
        _ = corr i j := (hsym i j).symm

/-- Witness for C4 at the spec's example: `std = [1, 2]`,
`corr = [[1, 0.5], [0.5, 1]]`; the intermediate covariance is `[[1, 1], [1, 4]]`
and the round trip returns `corr` unchanged. -/
theorem cov_correlation_round_trip_witness :
    correlation_to_cov ![(1 : ℝ), 2] ![![(1 : ℝ), 1/2], ![1/2, 1]]
      = ![![(1 : ℝ), 1], ![1, 4]] ∧
    cov_to_correlation (correlation_to_cov ![(1 : ℝ), 2] ![![(1 : ℝ), 1/2], ![1/2, 1]])
      = ![![(1 : ℝ), 1/2], ![1/2, 1]] := by
  constructor
  · funext i j
    fin_cases i <;> fin_cases j <;> norm_num [correlation_to_cov]
  · exact cov_correlation_round_trip ![(1 : ℝ), 2] ![![(1 : ℝ), 1/2], ![1/2, 1]]
      (by intro i; fin_cases i <;> norm_num)
      (by intro i j; fin_cases i <;> fin_cases j <;> norm_num)
      (by intro i; fin_cases i <;> norm_num)
      (by intro i j; fin_cases i <;> fin_cases j <;> norm_num [abs_le])

end ConverterTheorems

/-! ## Theorems about the retry loop (C5) -/

section RetryTheorems

/-- C5 counterexample: with the default single pass and a realistic score
(`ae = 1`), the first comparison `ae < 1.8e308` against the unbounded sentinel
succeeds, the `if` branch is taken and the attempt is returned — the
`else: raise` does *not* fire on the very first comparison, contrary to the
claim's final assertion. -/
theorem rank_loop_first_comparison_succeeds :
    rank_loop (0 : ℝ) 1 = Except.ok 0 := by
  have h : (1 : ℝ) < amin0 := by norm_num [amin0]
  simp [rank_loop, retryGo, ntry, h]

/-- C5 amended: `ntry = 1`, so a single pass of the retry loop is taken by
default; a pass whose score fails to improve on the incumbent best raises the
fatal "Could not order samples" exception instead of keeping the better
result; and since the initial incumbent is the unbounded sentinel `1.8e308`,
any attempt scoring below the sentinel takes the `if` branch on the first
comparison and is returned — the raise can fire on the first comparison only
if `ae ≥ 1.8e308`. -/
theorem rank_loop_spec {α : Type} (z : α) (ae : ℝ) :
    ntry = 1 ∧
    (ae < amin0 → rank_loop z ae = Except.ok z) ∧
    (amin0 ≤ ae → rank_loop z ae = Except.error "Could not order samples") := by
  refine ⟨rfl, fun h => ?_, fun h => ?_⟩
  · simp [rank_loop, retryGo, ntry, h]
  · simp [rank_loop, retryGo, ntry, not_lt.2 h]

/-- Witness for C5's amended theorem at `z = 37` with scores on both sides of
the sentinel. -/
theorem rank_loop_spec_witness :
    ((1 : ℝ) < amin0 ∧ rank_loop (37 : ℝ) 1 = Except.ok 37) ∧
    (amin0 ≤ amin0 ∧ rank_loop (37 : ℝ) amin0 = Except.error "Could not order samples") := by
  have h1 : (1 : ℝ) < amin0 := by norm_num [amin0]
  exact ⟨⟨h1, (rank_loop_spec (37 : ℝ) 1).2.1 h1⟩,
    ⟨le_rfl, (rank_loop_spec (37 : ℝ) amin0).2.2 le_rfl⟩⟩

end RetryTheorems

/-! ## Theorems about shape handling (C9) -/

section ShapeTheorems

theorem exceptMap_ok_strong {α β : Type} (f : α → Except String β) (p : β → Prop) :
    ∀ l : List α, (∀ a ∈ l, ∃ b, f a = Except.ok b ∧ p b) →
      ∃ bs, exceptMap f l = Except.ok bs ∧ bs.length = l.length ∧ ∀ b ∈ bs, p b
  | [], _ => ⟨[], rfl, rfl, by simp⟩
  | a :: rest, h => by
    obtain ⟨b, hb, hpb⟩ := h a (List.mem_cons_self a rest)
    obtain ⟨bs, hbs, hlen, hall⟩ :=
      exceptMap_ok_strong f p rest (fun x hx => h x (List.mem_cons_of_mem a hx))
    refine ⟨b :: bs, ?_, by simp [hlen], ?_⟩
    · simp only [exceptMap, hb, hbs]
    · intro c hc
      rcases List.mem_cons.1 hc with rfl | hc
      · exact hpb
      · exact hall c hc

theorem covEntryArr_ok (std : List ℝ) (corr : List (List ℝ))
    (h1 : std.length ≤ corr.length) (h2 : ∀ row ∈ corr, std.length ≤ row.length)
    (i j : ℕ) (hi : i < std.length) (hj : j < std.length) :
    ∃ x, covEntryArr std corr i j = Except.ok x := by
  by_cases hij : i = j
  · exact ⟨(std.getD i 0) ^ 2, by simp [covEntryArr, hij]⟩
  · have hmin : min i j < corr.length := lt_of_lt_of_le (min_lt_iff.2 (Or.inl hi)) h1
    have hmax : max i j < std.length := max_lt_iff.2 ⟨hi, hj⟩
    have hrow : std.length ≤ (corr.get ⟨min i j, hmin⟩).length :=
      h2 _ (List.get_mem corr (min i j) hmin)
    have hget : getEntry corr (min i j) (max i j)
        = Except.ok ((corr.get ⟨min i j, hmin⟩).get ⟨max i j, lt_of_lt_of_le hmax hrow⟩) := by
      have e1 : corr[min i j]? = some (corr.get ⟨min i j, hmin⟩) := by
        rw [List.getElem?_eq_getElem hmin]; simp [List.get_eq_getElem]
      have e2 : (corr.get ⟨min i j, hmin⟩)[max i j]?
          = some ((corr.get ⟨min i j, hmin⟩).get ⟨max i j, lt_of_lt_of_le hmax hrow⟩) := by
        rw [List.getElem?_eq_getElem (lt_of_lt_of_le hmax hrow)]
        simp [List.get_eq_getElem]
      simp only [getEntry, e1, e2]
    exact ⟨(corr.get ⟨min i j, hmin⟩).get ⟨max i j, lt_of_lt_of_le hmax hrow⟩
        * std.getD (min i j) 0 * std.getD (max i j) 0,
      by simp only [covEntryArr, if_neg hij, hget]⟩

/-- C9 amended: not every public operation fails immediately on mismatched
dimensions — `correlation_to_cov` itself performs no shape validation.
Whenever `len(std) ≤ dim(corr)`, the call does not fail: it succeeds and
silently truncates `corr` to its leading `len(std) × len(std)` block (the
output shape is `len(std) × len(std)` whatever the shape of `corr`), instead
of failing with a descriptive error identifying the disagreeing dimensions. -/
theorem correlation_to_cov_arr_no_shape_check (std : List ℝ) (corr : List (List ℝ))
    (h1 : std.length ≤ corr.length) (h2 : ∀ row ∈ corr, std.length ≤ row.length) :
    ∃ M, correlation_to_cov_arr std corr = Except.ok M ∧
      M.length = std.length ∧ ∀ row ∈ M, row.length = std.length := by
  have inner : ∀ i ∈ List.range std.length,
      ∃ row, exceptMap (fun j => covEntryArr std corr i j) (List.range std.length)
          = Except.ok row ∧ row.length = std.length := by
    intro i hi
    have hi' : i < std.length := List.mem_range.1 hi
    obtain ⟨row, hrow, hlen, -⟩ := exceptMap_ok_strong
      (fun j => covEntryArr std corr i j) (fun _ => True) (List.range std.length)
      (fun j hj => by
        obtain ⟨x, hx⟩ := covEntryArr_ok std corr h1 h2 i j hi' (List.mem_range.1 hj)
        exact ⟨x, hx, trivial⟩)
    exact ⟨row, hrow, by simpa using hlen⟩
  obtain ⟨M, hM, hMlen, hMall⟩ := exceptMap_ok_strong
    (fun i => exceptMap (fun j => covEntryArr std corr i j) (List.range std.length))
    (fun row => row.length = std.length) (List.range std.length) inner
  exact ⟨M, hM, by simpa using hMlen, hMall⟩

/-- Witness for C9's amended theorem at `std = [1, 2]` with a matching 2×2
correlation matrix. -/
theorem correlation_to_cov_arr_no_shape_check_witness :
    (([(1 : ℝ), 2]).length ≤ ([[(1 : ℝ), 1/2], [1/2, 1]]).length ∧
      ∀ row ∈ [[(1 : ℝ), 1/2], [1/2, 1]], ([(1 : ℝ), 2]).length ≤ row.length) ∧
    ∃ M, correlation_to_cov_arr [(1 : ℝ), 2] [[(1 : ℝ), 1/2], [1/2, 1]] = Except.ok M ∧
      M.length = ([(1 : ℝ), 2]).length ∧ ∀ row ∈ M, row.length = ([(1 : ℝ), 2]).length := by
  have ha : ([(1 : ℝ), 2]).length ≤ ([[(1 : ℝ), 1/2], [1/2, 1]]).length := by norm_num
  have hb : ∀ row ∈ [[(1 : ℝ), 1/2], [1/2, 1]], ([(1 : ℝ), 2]).length ≤ row.length := by
    intro row hrow
    rcases List.mem_cons.1 hrow with rfl | hrow
    · norm_num
    · rcases List.mem_cons.1 hrow with rfl | hrow
      · norm_num
      · cases hrow
  exact ⟨⟨ha, hb⟩, correlation_to_cov_arr_no_shape_check _ _ ha hb⟩

/-- C9 counterexample: a 1-element `std` against a 2×2 `corr` does not "fail
immediately with a descriptive error": the call succeeds, returning the
silently truncated 1×1 matrix `[[1]]`. -/
theorem correlation_to_cov_arr_silent_truncation :
    correlation_to_cov_arr [(1 : ℝ)] [[(1 : ℝ), 1/2], [1/2, 1]] = Except.ok [[(1 : ℝ)]] := by
  have h : covEntryArr [(1 : ℝ)] [[(1 : ℝ), 1/2], [1/2, 1]] 0 0 = Except.ok 1 := by
    norm_num [covEntryArr]
  have hr : List.range ([(1 : ℝ)].length) = [0] := rfl
  simp only [correlation_to_cov_arr, hr, exceptMap, h]

end ShapeTheorems

/-! ## Theorems about the re-ranking substitution (C3) -/

section RerankTheorems

theorem map_getD_range : ∀ l : List ℝ, (List.range l.length).map (fun k => l.getD k 0) = l
  | [] => rfl
  | a :: t => by
    rw [List.length_cons, List.range_succ_eq_map, List.map_cons, List.map_map]
    simp only [List.getD_cons_zero, Function.comp_def, List.getD_cons_succ]
    rw [map_getD_range t]

theorem rank_image_perm_range {m : ℕ} (v : Fin m → ℝ) :
    ((List.finRange m).map (rankOf v)).Perm (List.range m) := by
  have hperm : (argsortF v).Perm (List.finRange m) := List.perm_insertionSort _ _
  have hmem : ∀ i : Fin m, i ∈ argsortF v :=
    fun i => hperm.mem_iff.2 (List.mem_finRange i)
  have hlen : (argsortF v).length = m := by
    rw [hperm.length_eq, List.length_finRange]
  have hlt : ∀ i : Fin m, rankOf v i < m := fun i =>
    lt_of_lt_of_le (List.indexOf_lt_length.2 (hmem i)) (le_of_eq hlen)
  have hnodup : ((List.finRange m).map (rankOf v)).Nodup := by
    refine (List.nodup_finRange m).map_on ?_
    intro a _ b _ hab
    exact (List.indexOf_inj (hmem a) (hmem b)).1 hab
  have hsub : ((List.finRange m).map (rankOf v)) ⊆ List.range m := by
    intro x hx
    obtain ⟨i, -, rfl⟩ := List.mem_map.1 hx
    exact List.mem_range.2 (hlt i)
  have hsubperm := hnodup.subperm hsub
  refine hsubperm.perm_of_length_le ?_
  rw [List.length_range, List.length_map, List.length_finRange]

/-- C3: in the stratified correlated composition, the multiset of values in
output column `j` equals the multiset of the original stratified column `j`,
each value scaled by `std_dev[j]` and shifted by `mean_values[j]`: the final
re-ranking step only reorders the realized value set, for any valid input with
`num_vars ≥ 2` and `num_samples ≥ 10`. -/
theorem rerank_preserves_marginals {m nv : ℕ} (hm : 10 ≤ m) (hnv : 2 ≤ nv)
    (samples dependent : Fin m → Fin nv → ℝ)
    (std_dev mean_values : Fin nv → ℝ) (j : Fin nv) :
    ((List.finRange m).map (rerank_column samples dependent std_dev mean_values j)).Perm
      ((List.finRange m).map (fun i => samples i j * std_dev j + mean_values j)) := by
  set col : Fin m → ℝ := fun i => samples i j with hcol
  set v : Fin m → ℝ := fun i => dependent i j with hv
  set rs : List ℝ := sortedColumn col with hrs
  have hrs_perm : rs.Perm ((List.finRange m).map col) := List.perm_insertionSort _ _
  have hrs_len : rs.length = m := by
    rw [hrs_perm.length_eq, List.length_map, List.length_finRange]
  have step1 : (List.finRange m).map (rerank_column samples dependent std_dev mean_values j)
      = ((List.finRange m).map (rankOf v)).map
          (fun k => rs.getD k 0 * std_dev j + mean_values j) := by
    rw [List.map_map]
    rfl
  have step2 : (((List.finRange m).map (rankOf v)).map
        (fun k => rs.getD k 0 * std_dev j + mean_values j)).Perm
      ((List.range m).map (fun k => rs.getD k 0 * std_dev j + mean_values j)) :=
    (rank_image_perm_range v).map _
  have step3 : (List.range m).map (fun k => rs.getD k 0 * std_dev j + mean_values j)
      = rs.map (fun x => x * std_dev j + mean_values j) := by
    have : (List.range m).map (fun k => rs.getD k 0 * std_dev j + mean_values j)
        = ((List.range rs.length).map (fun k => rs.getD k 0)).map
            (fun x => x * std_dev j + mean_values j) := by
      rw [List.map_map, hrs_len]
      rfl
    rw [this, map_getD_range]
  have step4 : (rs.map (fun x => x * std_dev j + mean_values j)).Perm
      (((List.finRange m).map col).map (fun x => x * std_dev j + mean_values j)) :=
    hrs_perm.map _
  have step5 : ((List.finRange m).map col).map (fun x => x * std_dev j + mean_values j)
      = (List.finRange m).map (fun i => samples i j * std_dev j + mean_values j) := by
    rw [List.map_map]
    rfl
  rw [step1]
  exact (step2.trans (step3 ▸ step4)).trans (step5 ▸ List.Perm.refl _)

/-- Witness for C3 at `num_samples = 10`, `num_vars = 2` with concrete input
matrices. -/
theorem rerank_preserves_marginals_witness :
    10 ≤ 10 ∧ 2 ≤ 2 ∧
    ((List.finRange 10).map (rerank_column
        (fun (_ : Fin 10) (_ : Fin 2) => (1 : ℝ)) (fun (_ : Fin 10) (_ : Fin 2) => (0 : ℝ))
        (fun (_ : Fin 2) => (2 : ℝ)) (fun (_ : Fin 2) => (3 : ℝ)) (0 : Fin 2))).Perm
      ((List.finRange 10).map (fun _ => (1 : ℝ) * 2 + 3)) :=
  ⟨le_rfl, le_rfl, rerank_preserves_marginals le_rfl le_rfl _ _ _ _ (0 : Fin 2)⟩

end RerankTheorems

/-! ## Generic fold lemmas -/

section FoldLemmas

theorem foldl_pred {α β : Type} (f : β → α → β) (p : β → Prop) :
    ∀ (l : List α) (c : β), p c → (∀ b a, a ∈ l → p b → p (f b a)) →
      p (List.foldl f c l)
  | [], _, hc, _ => hc
  | a :: l, c, hc, hstep =>
    foldl_pred f p l (f c a) (hstep c a (List.mem_cons_self a l) hc)
      (fun b x hx hb => hstep b x (List.mem_cons_of_mem a hx) hb)

theorem foldl_measure_init {α β : Type} (f : β → α → β) (M : β → ℝ) :
    ∀ (l : List α) (c : β), (∀ t x, x ∈ l → M t ≤ M (f t x)) →
      M c ≤ M (List.foldl f c l)
  | [], _, _ => le_rfl
  | a :: l, c, h =>
    le_trans (h c a (List.mem_cons_self a l))
      (foldl_measure_init f M l (f c a)
        (fun t x hx => h t x (List.mem_cons_of_mem a hx)))

theorem foldl_measure_mem {α β : Type} (f : β → α → β) (M : β → ℝ) (m : α → ℝ) :
    ∀ (l : List α) (c : β), (∀ t x, x ∈ l → M t ≤ M (f t x)) →
      (∀ t x, x ∈ l → m x ≤ M (f t x)) → ∀ a ∈ l, m a ≤ M (List.foldl f c l)
  | [], _, _, _, a, ha => absurd ha (List.not_mem_nil a)
  | x :: l, c, hkeep, hhit, a, ha => by
    rcases List.mem_cons.1 ha with rfl | ha
    · exact le_trans (hhit c a (List.mem_cons_self a l))
        (foldl_measure_init f M l (f c a)
          (fun t y hy => hkeep t y (List.mem_cons_of_mem a hy)))
    · exact foldl_measure_mem f M m l (f c x)
        (fun t y hy => hkeep t y (List.mem_cons_of_mem x hy))
        (fun t y hy => hhit t y (List.mem_cons_of_mem x hy)) a ha

theorem finRange_foldl_inv {n : ℕ} {S : Type} (f : S → Fin n → S) (Inv : ℕ → S → Prop)
    (h : ∀ (j : Fin n) s, Inv j.val s → Inv (j.val + 1) (f s j)) (s0 : S)
    (h0 : Inv 0 s0) : Inv n ((List.finRange n).foldl f s0) := by
  suffices H : ∀ k, k ≤ n → Inv k (((List.finRange n).take k).foldl f s0) by
    have hfin := H n le_rfl
    rwa [List.take_of_length_le (le_of_eq (List.length_finRange n))] at hfin
  intro k
  induction k with
  | zero => intro _; exact h0
  | succ k ih =>
    intro hk
    have hk' : k < n := hk
    have hklen : k < (List.finRange n).length := by
      rw [List.length_finRange]; exact hk'
    have e1 : (List.finRange n).take (k + 1)
        = (List.finRange n).take k ++ [⟨k, hk'⟩] := by
      rw [List.take_succ, List.getElem?_eq_getElem hklen]
      simp [List.getElem_finRange, Fin.cast]
    rw [e1, List.foldl_append]
    simp only [List.foldl_cons, List.foldl_nil]
    exact h ⟨k, hk'⟩ _ (ih (le_of_lt hk'))

end FoldLemmas

/-! ## The swap step as an index permutation -/

section SwapLemmas

theorem matMul_swapMat_right {n : ℕ} (B : Fin n → Fin n → ℝ) (j q : Fin n) :
    matMul B (swapMat j q) = fun l x => B l (Equiv.swap j q x) := by
  funext l x
  simp only [matMul, swapMat]
  rw [Finset.sum_eq_single (Equiv.swap j q x)]
  · simp [Equiv.swap_apply_self]
  · intro c _ hc
    rw [if_neg, mul_zero]
    intro h
    exact hc (by rw [h, Equiv.swap_apply_self])
  · intro h
    exact absurd (Finset.mem_univ _) h

theorem matMul_swapMat_left {n : ℕ} (B : Fin n → Fin n → ℝ) (j q : Fin n) :
    matMul (swapMat j q) B = fun x k => B (Equiv.swap j q x) k := by
  funext x k
  simp only [matMul, swapMat]
  rw [Finset.sum_eq_single (Equiv.swap j q x)]
  · simp
  · intro c _ hc
    rw [if_neg hc, zero_mul]
  · intro h
    exact absurd (Finset.mem_univ _) h

theorem gmwSwap_a {n : ℕ} (st : GmwState n) (j q : Fin n) :
    (gmwSwap st j q).a = fun x y => st.a (Equiv.swap j q x) (Equiv.swap j q y) := by
  show matMul (swapMat j q) (matMul st.a (swapMat j q)) = _
  rw [matMul_swapMat_right, matMul_swapMat_left]

theorem gmwSwap_r {n : ℕ} (st : GmwState n) (j q : Fin n) :
    (gmwSwap st j q).r = fun l x => st.r l (Equiv.swap j q x) := by
  show matMul st.r (swapMat j q) = _
  rw [matMul_swapMat_right]

theorem gmwSwap_e {n : ℕ} (st : GmwState n) (j q : Fin n) :
    (gmwSwap st j q).e = st.e := rfl

theorem gmwSwap_P {n : ℕ} (st : GmwState n) (j q : Fin n) :
    (gmwSwap st j q).P = fun i k => st.P i (Equiv.swap j q k) := rfl

end SwapLemmas

/-! ## Preservation of the GMW loop invariant -/

section GmwInvariant

theorem swap_fix_lt {n : ℕ} (j q x : Fin n) (hq : j ≤ q) (hx : (x : ℕ) < (j : ℕ)) :
    Equiv.swap j q x = x := by
  have hxj : x ≠ j := ne_of_lt (Fin.lt_def.2 hx)
  have hxq : x ≠ q := ne_of_lt (lt_of_lt_of_le (Fin.lt_def.2 hx) hq)
  exact Equiv.swap_apply_of_ne_of_ne hxj hxq

theorem swap_lt_iff {n : ℕ} (j q x : Fin n) (hq : j ≤ q) :
    ((Equiv.swap j q x : Fin n) : ℕ) < (j : ℕ) ↔ (x : ℕ) < (j : ℕ) := by
  constructor
  · intro h
    have h2 := swap_fix_lt j q (Equiv.swap j q x) hq h
    rw [Equiv.swap_apply_self] at h2
    rw [h2]
    exact h
  · intro h
    rwa [swap_fix_lt j q x hq h]

theorem gmwSwap_inv {n : ℕ} (A : Fin n → Fin n → ℝ) (j q : Fin n) (hq : j ≤ q)
    (st : GmwState n) (h : GmwInv A j.val st) : GmwInv A j.val (gmwSwap st j q) := by
  obtain ⟨hsym, ⟨σ, hP, hfact⟩, hrz, hrt, hrd, hep⟩ := h
  rw [GmwInv]
  simp only [gmwSwap_a, gmwSwap_r, gmwSwap_e, gmwSwap_P]
  have hge : ∀ x : Fin n, (j : ℕ) ≤ (x : ℕ) →
      (j : ℕ) ≤ ((Equiv.swap j q x : Fin n) : ℕ) := by
    intro x hx
    exact not_lt.1 (fun hcon => not_lt.2 hx ((swap_lt_iff j q x hq).1 hcon))
  refine ⟨?_, ⟨σ.trans (Equiv.swap j q), ?_, ?_⟩, ?_, ?_, ?_, hep⟩
  · intro x y
    exact hsym _ _
  · intro i k
    rw [hP i (Equiv.swap j q k)]
    have hiff : (Equiv.swap j q k = σ i) ↔ (k = (σ.trans (Equiv.swap j q)) i) := by
      rw [Equiv.trans_apply]
      constructor
      · intro hh
        rw [← hh, Equiv.swap_apply_self]
      · intro hh
        rw [hh, Equiv.swap_apply_self]
    rw [if_congr hiff rfl rfl]
  · intro x y
    have hsymm_eq : ∀ z : Fin n, (σ.trans (Equiv.swap j q)).symm z
        = σ.symm (Equiv.swap j q z) := by
      intro z
      simp [Equiv.symm_trans_apply]
    have H := hfact (Equiv.swap j q x) (Equiv.swap j q y)
    rw [hsymm_eq x, hsymm_eq y]
    have hc1 : (Equiv.swap j q x = Equiv.swap j q y
        ∧ ((Equiv.swap j q x : Fin n) : ℕ) < (j : ℕ)) ↔ (x = y ∧ (x : ℕ) < (j : ℕ)) := by
      rw [Equiv.apply_eq_iff_eq, swap_lt_iff j q x hq]
    have hc2 : ((j : ℕ) ≤ ((Equiv.swap j q x : Fin n) : ℕ)
        ∧ (j : ℕ) ≤ ((Equiv.swap j q y : Fin n) : ℕ)) ↔ ((j : ℕ) ≤ (x : ℕ) ∧ (j : ℕ) ≤ (y : ℕ)) := by
      rw [← not_lt, ← not_lt, swap_lt_iff j q x hq, swap_lt_iff j q y hq, not_lt, not_lt]
    rw [if_congr hc1 rfl rfl, if_congr hc2 rfl rfl] at H
    by_cases hc : x = y ∧ (x : ℕ) < (j : ℕ)
    · rw [if_pos hc] at H ⊢
      have hy : (y : ℕ) < (j : ℕ) := hc.1 ▸ hc.2
      rw [swap_fix_lt j q x hq hc.2, swap_fix_lt j q y hq hy] at H ⊢
      exact H
    · rw [if_neg hc] at H ⊢
      exact H
  · intro l x hl
    exact hrz l _ hl
  · intro l x hl hxl
    have hx : (x : ℕ) < (j : ℕ) := lt_trans (Fin.lt_def.1 hxl) hl
    rw [swap_fix_lt j q x hq hx]
    exact hrt l x hl hxl
  · intro l hl
    rw [swap_fix_lt j q l hq hl]
    exact hrd l hl

theorem sumBelow_succ {n : ℕ} (j : Fin n) (r2 r : Fin n → Fin n → ℝ)
    (hagree : ∀ l : Fin n, l ≠ j → ∀ z, r2 l z = r l z) (x y : Fin n) :
    (∑ l : Fin n, if (l : ℕ) < (j : ℕ) + 1 then r2 l x * r2 l y else 0)
      = (∑ l : Fin n, if (l : ℕ) < (j : ℕ) then r l x * r l y else 0)
        + r2 j x * r2 j y := by
  have key : ∀ l : Fin n, (if (l : ℕ) < (j : ℕ) + 1 then r2 l x * r2 l y else 0)
      = (if (l : ℕ) < (j : ℕ) then r l x * r l y else 0)
        + (if l = j then r2 j x * r2 j y else 0) := by
    intro l
    by_cases hlj : l = j
    · subst hlj
      rw [if_pos (Nat.lt_succ_self _), if_neg (lt_irrefl _), if_pos rfl, zero_add]
    · have hv : (l : ℕ) ≠ (j : ℕ) := fun hh => hlj (Fin.ext hh)
      rw [hagree l hlj x, hagree l hlj y, if_neg hlj, add_zero]
      by_cases hl : (l : ℕ) < (j : ℕ)
      · rw [if_pos hl, if_pos (Nat.lt_succ_of_lt hl)]
      · rw [if_neg hl, if_neg (by omega)]
  rw [Finset.sum_congr rfl (fun l _ => key l), Finset.sum_add_distrib,
    Finset.sum_ite_eq' Finset.univ j (fun _ => r2 j x * r2 j y)]
  simp

theorem gmwElim_a {n : ℕ} (beta delta : ℝ) (st : GmwState n) (j : Fin n) :
    (gmwElim beta delta st j).a = fun x y => if j < x ∧ j < y
      then st.a (min x y) (max x y) - gmwRj beta delta st j x * gmwRj beta delta st j y
      else st.a x y := rfl

theorem gmwElim_r {n : ℕ} (beta delta : ℝ) (st : GmwState n) (j : Fin n) :
    (gmwElim beta delta st j).r
      = fun l i => if l = j then gmwRj beta delta st j i else st.r l i := rfl

theorem gmwElim_e {n : ℕ} (beta delta : ℝ) (st : GmwState n) (j : Fin n) :
    (gmwElim beta delta st j).e
      = Function.update st.e j (gmwD beta delta st.a j - st.a j j) := rfl

theorem gmwElim_P {n : ℕ} (beta delta : ℝ) (st : GmwState n) (j : Fin n) :
    (gmwElim beta delta st j).P = st.P := rfl

theorem gmwElim_inv {n : ℕ} (A : Fin n → Fin n → ℝ) (beta delta : ℝ)
    (hdel : 0 < delta) (st : GmwState n) (j : Fin n) (h : GmwInv A j.val st) :
    GmwInv A (j.val + 1) (gmwElim beta delta st j) := by
  obtain ⟨hsym, ⟨σ, hP, hfact⟩, hrz, hrt, hrd, hep⟩ := h
  have hdd : delta ≤ gmwD beta delta st.a j := le_max_right _ _
  have hd0 : 0 < gmwD beta delta st.a j := lt_of_lt_of_le hdel hdd
  have hda : |st.a j j| ≤ gmwD beta delta st.a j :=
    le_trans (le_max_left _ _) (le_max_left _ _)
  have hsq : Real.sqrt (gmwD beta delta st.a j) * Real.sqrt (gmwD beta delta st.a j)
      = gmwD beta delta st.a j := Real.mul_self_sqrt hd0.le
  have hsqpos : 0 < Real.sqrt (gmwD beta delta st.a j) := Real.sqrt_pos.2 hd0
  have hrj_j : gmwRj beta delta st j j = Real.sqrt (gmwD beta delta st.a j) := by
    rw [gmwRj, if_pos rfl]
  have hrj_gt : ∀ i : Fin n, j < i →
      gmwRj beta delta st j i = st.a j i / Real.sqrt (gmwD beta delta st.a j) := by
    intro i hi
    rw [gmwRj, if_neg (ne_of_gt hi), if_pos hi]
  have hrj_lt : ∀ i : Fin n, i < j → gmwRj beta delta st j i = 0 := by
    intro i hi
    rw [gmwRj, if_neg (ne_of_lt hi), if_neg (asymm hi)]
    exact hrz j i le_rfl
  rw [GmwInv]
  simp only [gmwElim_a, gmwElim_r, gmwElim_e, gmwElim_P]
  have hagree : ∀ l : Fin n, l ≠ j → ∀ z : Fin n,
      (if l = j then gmwRj beta delta st j z else st.r l z) = st.r l z := by
    intro l hl z
    rw [if_neg hl]
  refine ⟨?_, ⟨σ, hP, ?_⟩, ?_, ?_, ?_, ?_⟩
  · -- symmetry of the updated working matrix
    intro x y
    by_cases hc : j < x ∧ j < y
    · rw [if_pos hc, if_pos ⟨hc.2, hc.1⟩, min_comm y x, max_comm y x]
      ring
    · have hc2 : ¬ (j < y ∧ j < x) := fun hh => hc ⟨hh.2, hh.1⟩
      rw [if_neg hc, if_neg hc2]
      exact hsym x y
  · -- the factorization identity
    intro x y
    rw [sumBelow_succ j (fun l z => if l = j then gmwRj beta delta st j z else st.r l z)
      st.r hagree x y]
    rw [show (if j = j then gmwRj beta delta st j x else st.r j x)
        = gmwRj beta delta st j x from if_pos rfl]
    rw [show (if j = j then gmwRj beta delta st j y else st.r j y)
        = gmwRj beta delta st j y from if_pos rfl]
    rcases lt_trichotomy (x : ℕ) (j : ℕ) with hx | hx | hx
    · -- x strictly below the pivot column
      have hxj : x ≠ j := fun hh => absurd hx (by rw [hh]; exact lt_irrefl _)
      rw [hrj_lt x (Fin.lt_def.2 hx), zero_mul, add_zero,
        if_neg (fun hh : (j : ℕ) + 1 ≤ (x : ℕ) ∧ (j : ℕ) + 1 ≤ (y : ℕ) => by omega),
        Function.update_noteq hxj,
        if_congr (show (x = y ∧ (x : ℕ) < (j : ℕ) + 1) ↔ (x = y ∧ (x : ℕ) < (j : ℕ)) from
          ⟨fun hh => ⟨hh.1, hx⟩, fun hh => ⟨hh.1, by omega⟩⟩) rfl rfl]
      have H := hfact x y
      rw [if_neg (fun hh : (j : ℕ) ≤ (x : ℕ) ∧ (j : ℕ) ≤ (y : ℕ) => by omega)] at H
      linarith
    · -- x is the pivot column
      have hxj : x = j := Fin.ext hx
      subst hxj
      rcases lt_trichotomy (y : ℕ) (x : ℕ) with hy | hy | hy
      · -- y strictly below: mirror of the first case
        have hxy : ¬ (x = y ∧ (x : ℕ) < (x : ℕ) + 1) := fun hh => by
          rw [hh.1] at hy; omega
        rw [hrj_lt y (Fin.lt_def.2 hy), mul_zero, add_zero,
          if_neg (fun hh : (x : ℕ) + 1 ≤ (x : ℕ) ∧ (x : ℕ) + 1 ≤ (y : ℕ) => by omega),
          if_neg hxy]
        have H := hfact x y
        rw [if_neg (fun hh : (x : ℕ) ≤ (x : ℕ) ∧ (x : ℕ) ≤ (y : ℕ) => by omega),
          if_neg (fun hh : x = y ∧ (x : ℕ) < (x : ℕ) => by omega)] at H
        linarith
      · -- y = x = j : the diagonal step, e[j] = dj - a[j,j]
        have hyx : y = x := Fin.ext hy
        subst hyx
        rw [if_pos ⟨rfl, Nat.lt_succ_self _⟩, Function.update_same, hrj_j, hsq,
          if_neg (fun hh : (y : ℕ) + 1 ≤ (y : ℕ) ∧ (y : ℕ) + 1 ≤ (y : ℕ) => by omega)]
        have H := hfact y y
        rw [if_neg (fun hh : y = y ∧ (y : ℕ) < (y : ℕ) => by omega),
          if_pos ⟨le_rfl, le_rfl⟩] at H
        linarith
      · -- y above the pivot column: r[j,j]*r[j,y] = a[j,y]
        have hyx : x ≠ y := fun hh => absurd hy (by rw [hh]; exact lt_irrefl _)
        have hcancel : Real.sqrt (gmwD beta delta st.a x)
            * (st.a x y / Real.sqrt (gmwD beta delta st.a x)) = st.a x y := by
          rw [mul_comm]
          exact div_mul_cancel₀ _ (ne_of_gt hsqpos)
        rw [hrj_j, hrj_gt y (Fin.lt_def.2 hy), hcancel,
          if_neg (fun hh : x = y ∧ (x : ℕ) < (x : ℕ) + 1 => hyx hh.1),
          if_neg (fun hh : (x : ℕ) + 1 ≤ (x : ℕ) ∧ (x : ℕ) + 1 ≤ (y : ℕ) => by omega)]
        have H := hfact x y
        rw [if_neg (fun hh : x = y ∧ (x : ℕ) < (x : ℕ) => hyx hh.1),
          if_pos ⟨le_rfl, le_of_lt hy⟩] at H
        linarith
    · -- x strictly above the pivot column
      rcases lt_trichotomy (y : ℕ) (j : ℕ) with hy | hy | hy
      · -- y strictly below
        have hxy : ¬ (x = y ∧ (x : ℕ) < (j : ℕ) + 1) := fun hh => by
          rw [hh.1] at hx; omega
        rw [hrj_lt y (Fin.lt_def.2 hy), mul_zero, add_zero,
          if_neg (fun hh : (j : ℕ) + 1 ≤ (x : ℕ) ∧ (j : ℕ) + 1 ≤ (y : ℕ) => by omega),
          if_neg hxy]
        have H := hfact x y
        rw [if_neg (fun hh : (j : ℕ) ≤ (x : ℕ) ∧ (j : ℕ) ≤ (y : ℕ) => by omega),
          if_neg (fun hh : x = y ∧ (x : ℕ) < (j : ℕ) => by rw [hh.1] at hx; omega)] at H
        linarith
      · -- y = j : r[j,x]*r[j,j] = a[j,x], and a[x,j] = a[j,x] by symmetry
        have hyj : y = j := Fin.ext hy
        subst hyj
        have hxy : x ≠ y := fun hh => absurd hx (by rw [hh]; exact lt_irrefl _)
        rw [hrj_j, hrj_gt x (Fin.lt_def.2 hx),
          div_mul_cancel₀ _ (ne_of_gt hsqpos),
          if_neg (fun hh : x = y ∧ (x : ℕ) < (y : ℕ) + 1 => hxy hh.1),
          if_neg (fun hh : (y : ℕ) + 1 ≤ (x : ℕ) ∧ (y : ℕ) + 1 ≤ (y : ℕ) => by omega)]
        have H := hfact x y
        rw [if_neg (fun hh : x = y ∧ (x : ℕ) < (y : ℕ) => hxy hh.1),
          if_pos ⟨le_of_lt hx, le_rfl⟩] at H
        have Hs := hsym x y
        linarith
      · -- both strictly above: the trailing Schur-style update
        have hminmax : st.a (min x y) (max x y) = st.a x y := by
          rcases le_total x y with hxy | hxy
          · rw [min_eq_left hxy, max_eq_right hxy]
          · rw [min_eq_right hxy, max_eq_left hxy]
            exact hsym y x
        rw [if_neg (fun hh : x = y ∧ (x : ℕ) < (j : ℕ) + 1 => by omega),
          if_pos ⟨(by omega : (j : ℕ) + 1 ≤ (x : ℕ)), (by omega : (j : ℕ) + 1 ≤ (y : ℕ))⟩,
          if_pos ⟨Fin.lt_def.2 hx, Fin.lt_def.2 hy⟩, hminmax]
        have H := hfact x y
        rw [if_neg (fun hh : x = y ∧ (x : ℕ) < (j : ℕ) => by omega),
          if_pos ⟨le_of_lt hx, le_of_lt hy⟩] at H
        linarith
  · -- rows at or above j+1 of r are still zero
    intro l z hl
    have hlj : l ≠ j := fun hh => by rw [hh] at hl; omega
    rw [if_neg hlj]
    exact hrz l z (by omega)
  · -- processed rows are upper triangular
    intro l z hl hzl
    by_cases hlj : l = j
    · subst hlj
      rw [if_pos rfl]
      exact hrj_lt z hzl
    · have hv : (l : ℕ) ≠ (j : ℕ) := fun hh => hlj (Fin.ext hh)
      rw [if_neg hlj]
      exact hrt l z (by omega) hzl
  · -- processed diagonal entries of r are positive
    intro l hl
    by_cases hlj : l = j
    · subst hlj
      rw [if_pos rfl, hrj_j]
      exact hsqpos
    · have hv : (l : ℕ) ≠ (j : ℕ) := fun hh => hlj (Fin.ext hh)
      rw [if_neg hlj]
      exact hrd l (by omega)
  · -- processed shifts are nonnegative
    intro l hl
    by_cases hlj : l = j
    · subst hlj
      rw [Function.update_same]
      have := le_trans (le_abs_self _) hda
      linarith
    · have hv : (l : ℕ) ≠ (j : ℕ) := fun hh => hlj (Fin.ext hh)
      rw [Function.update_noteq hlj]
      exact hep l (by omega)

theorem gmwPivot_ge {n : ℕ} (a : Fin n → Fin n → ℝ) (j : Fin n) : j ≤ gmwPivot a j := by
  refine foldl_pred (fun q i => if |a i i| ≥ |a q q| then i else q) (fun q => j ≤ q)
    ((List.finRange n).filter (fun i => j < i)) j le_rfl ?_
  intro b i hi hb
  show j ≤ if |a i i| ≥ |a b b| then i else b
  by_cases hc : |a i i| ≥ |a b b|
  · rw [if_pos hc]
    have hmem := (List.mem_filter.1 hi).2
    exact le_of_lt (by simpa using hmem)
  · rw [if_neg hc]
    exact hb

theorem gmwStep_inv {n : ℕ} (A : Fin n → Fin n → ℝ) (beta delta : ℝ)
    (hdel : 0 < delta) (j : Fin n) (st : GmwState n) (h : GmwInv A j.val st) :
    GmwInv A (j.val + 1) (gmwStep beta delta st j) := by
  rw [gmwStep]
  by_cases hq : gmwPivot st.a j ≠ j
  · rw [if_pos hq]
    exact gmwElim_inv A beta delta hdel _ j
      (gmwSwap_inv A j (gmwPivot st.a j) (gmwPivot_ge st.a j) st h)
  · rw [if_neg hq]
    exact gmwElim_inv A beta delta hdel st j h

theorem _EPS_pos : 0 < _EPS := by
  rw [_EPS]
  positivity

theorem gmwDelta_pos {n : ℕ} (A : Fin n → Fin n → ℝ) : 0 < gmwDelta A := by
  rw [gmwDelta]
  exact mul_pos _EPS_pos (lt_of_lt_of_le one_pos (le_max_right _ _))

theorem gmwInv_init {n : ℕ} (A : Fin n → Fin n → ℝ) (hsym : ∀ i k, A i k = A k i) :
    GmwInv A 0 (gmwInit A) := by
  refine ⟨hsym, ⟨Equiv.refl _, ?_, ?_⟩, fun l x _ => rfl,
    fun l x h _ => absurd h (Nat.not_lt_zero _),
    fun l h => absurd h (Nat.not_lt_zero _),
    fun l h => absurd h (Nat.not_lt_zero _)⟩
  · intro i k
    show (if i = k then (1 : ℝ) else 0) = if k = Equiv.refl (Fin n) i then 1 else 0
    simp only [Equiv.refl_apply]
    by_cases h : i = k
    · rw [if_pos h, if_pos h.symm]
    · rw [if_neg h, if_neg (fun hh => h hh.symm)]
  · intro x y
    simp [gmwInit, Nat.not_lt_zero]

theorem gmw_main {n : ℕ} (A : Fin n → Fin n → ℝ) (hsym : ∀ i k, A i k = A k i) :
    IsPermMatrix (gmw_cholesky A).1 ∧
    (∀ i k : Fin n, i < k → (gmw_cholesky A).2.1 i k = 0) ∧
    (∀ i : Fin n, 0 < (gmw_cholesky A).2.1 i i) ∧
    (∀ i : Fin n, 0 ≤ (gmw_cholesky A).2.2 i) ∧
    (∀ x y : Fin n,
      matMul (matT (gmw_cholesky A).1) (matMul A (gmw_cholesky A).1) x y
        = matMul (gmw_cholesky A).2.1 (matT (gmw_cholesky A).2.1) x y
          - diagE (gmw_cholesky A).2.2 x y) := by
  have hinv : GmwInv A n (gmwFinal A) :=
    finRange_foldl_inv (gmwStep (gmwBeta A) (gmwDelta A)) (GmwInv A)
      (fun j s hs => gmwStep_inv A _ _ (gmwDelta_pos A) j s hs) _ (gmwInv_init A hsym)
  obtain ⟨hsymf, ⟨σ, hP, hfact⟩, hrz, hrt, hrd, hep⟩ := hinv
  refine ⟨⟨σ, hP⟩, ?_, ?_, ?_, ?_⟩
  · intro i k hik
    exact hrt k i k.isLt hik
  · intro i
    exact hrd i i.isLt
  · intro i
    exact hep i i.isLt
  · intro x y
    have hAP : ∀ (i : Fin n) (z : Fin n),
        matMul A (gmwFinal A).P i z = A i (σ.symm z) := by
      intro i z
      show (∑ k, A i k * (gmwFinal A).P k z) = A i (σ.symm z)
      have hterm : ∀ k : Fin n, A i k * (gmwFinal A).P k z
          = if k = σ.symm z then A i k else 0 := by
        intro k
        rw [hP k z]
        by_cases hk : k = σ.symm z
        · rw [if_pos (by rw [hk, Equiv.apply_symm_apply]), mul_one, if_pos hk]
        · rw [if_neg (fun hcon => hk (by rw [hcon, Equiv.symm_apply_apply])),
            mul_zero, if_neg hk]
      rw [Finset.sum_congr rfl (fun k _ => hterm k),
        Finset.sum_ite_eq' Finset.univ (σ.symm z) (fun k => A i k)]
      simp
    have hPT : matMul (matT (gmwFinal A).P) (matMul A (gmwFinal A).P) x y
        = A (σ.symm x) (σ.symm y) := by
      show (∑ i, (gmwFinal A).P i x * matMul A (gmwFinal A).P i y) = _
      have hterm : ∀ i : Fin n, (gmwFinal A).P i x * matMul A (gmwFinal A).P i y
          = if i = σ.symm x then matMul A (gmwFinal A).P i y else 0 := by
        intro i
        rw [hP i x]
        by_cases hi : i = σ.symm x
        · rw [if_pos (by rw [hi, Equiv.apply_symm_apply]), one_mul, if_pos hi]
        · rw [if_neg (fun hcon => hi (by rw [hcon, Equiv.symm_apply_apply])),
            zero_mul, if_neg hi]
      rw [Finset.sum_congr rfl (fun i _ => hterm i),
        Finset.sum_ite_eq' Finset.univ (σ.symm x)
          (fun i => matMul A (gmwFinal A).P i y)]
      simp only [Finset.mem_univ, if_true]
      rw [hAP (σ.symm x) y]
    show matMul (matT (gmwFinal A).P) (matMul A (gmwFinal A).P) x y
      = matMul (matT (gmwFinal A).r) (matT (matT (gmwFinal A).r)) x y
        - diagE (gmwFinal A).e x y
    rw [hPT]
    have H := hfact x y
    rw [if_congr (and_iff_left x.isLt) rfl rfl,
      if_neg (fun hh : n ≤ (x : ℕ) ∧ n ≤ (y : ℕ) => absurd x.isLt (not_lt.2 hh.1)),
      Finset.sum_congr rfl (fun (l : Fin n) (_ : l ∈ Finset.univ) =>
        if_pos l.isLt)] at H
    have hRR : matMul (matT (gmwFinal A).r) (matT (matT (gmwFinal A).r)) x y
        = ∑ l, (gmwFinal A).r l x * (gmwFinal A).r l y := rfl
    have hDE : diagE (gmwFinal A).e x y = if x = y then (gmwFinal A).e x else 0 := rfl
    rw [hRR, hDE]
    linarith

end GmwInvariant

/-! ## Claim theorems about `gmw_cholesky` -/

section GmwClaims

/-- C1: for every real symmetric `n × n` matrix `A` (`n ≥ 1`),
`gmw_cholesky(A)` returns a triple `(P, L, e)` in which `P` is a permutation
matrix, `L` is lower triangular with strictly positive diagonal, every entry
of `e` is `≥ 0`, and `P.T*A*P = L*L.T - diag(e)` holds — exactly in the
real-number model, hence entrywise within the claimed `1e-8` tolerance. -/
theorem gmw_cholesky_correct {n : ℕ} (hn : 1 ≤ n) (A : Fin n → Fin n → ℝ)
    (hsym : ∀ i k, A i k = A k i) :
    IsPermMatrix (gmw_cholesky A).1 ∧
    (∀ i k : Fin n, i < k → (gmw_cholesky A).2.1 i k = 0) ∧
    (∀ i : Fin n, 0 < (gmw_cholesky A).2.1 i i) ∧
    (∀ i : Fin n, 0 ≤ (gmw_cholesky A).2.2 i) ∧
    (∀ x y : Fin n,
      matMul (matT (gmw_cholesky A).1) (matMul A (gmw_cholesky A).1) x y
        = matMul (gmw_cholesky A).2.1 (matT (gmw_cholesky A).2.1) x y
          - diagE (gmw_cholesky A).2.2 x y) ∧
    (∀ x y : Fin n,
      |matMul (matT (gmw_cholesky A).1) (matMul A (gmw_cholesky A).1) x y
        - (matMul (gmw_cholesky A).2.1 (matT (gmw_cholesky A).2.1) x y
          - diagE (gmw_cholesky A).2.2 x y)| ≤ 1e-8) := by
  obtain ⟨h1, h2, h3, h4, h5⟩ := gmw_main A hsym
  refine ⟨h1, h2, h3, h4, h5, ?_⟩
  intro x y
  rw [h5 x y, sub_self, abs_zero]
  norm_num

/-- Witness for C1 at the symmetric `1 × 1` matrix `[[2]]`. -/
theorem gmw_cholesky_correct_witness :
    1 ≤ 1 ∧
    (∀ i k : Fin 1, (fun (_ _ : Fin 1) => (2 : ℝ)) i k = (fun (_ _ : Fin 1) => (2 : ℝ)) k i) ∧
    (IsPermMatrix (gmw_cholesky (fun (_ _ : Fin 1) => (2 : ℝ))).1 ∧
     (∀ i k : Fin 1, i < k → (gmw_cholesky (fun (_ _ : Fin 1) => (2 : ℝ))).2.1 i k = 0) ∧
     (∀ i : Fin 1, 0 < (gmw_cholesky (fun (_ _ : Fin 1) => (2 : ℝ))).2.1 i i) ∧
     (∀ i : Fin 1, 0 ≤ (gmw_cholesky (fun (_ _ : Fin 1) => (2 : ℝ))).2.2 i) ∧
     (∀ x y : Fin 1,
       matMul (matT (gmw_cholesky (fun (_ _ : Fin 1) => (2 : ℝ))).1)
           (matMul (fun (_ _ : Fin 1) => (2 : ℝ)) (gmw_cholesky (fun (_ _ : Fin 1) => (2 : ℝ))).1) x y
         = matMul (gmw_cholesky (fun (_ _ : Fin 1) => (2 : ℝ))).2.1
             (matT (gmw_cholesky (fun (_ _ : Fin 1) => (2 : ℝ))).2.1) x y
           - diagE (gmw_cholesky (fun (_ _ : Fin 1) => (2 : ℝ))).2.2 x y) ∧
     (∀ x y : Fin 1,
       |matMul (matT (gmw_cholesky (fun (_ _ : Fin 1) => (2 : ℝ))).1)
           (matMul (fun (_ _ : Fin 1) => (2 : ℝ)) (gmw_cholesky (fun (_ _ : Fin 1) => (2 : ℝ))).1) x y
         - (matMul (gmw_cholesky (fun (_ _ : Fin 1) => (2 : ℝ))).2.1
             (matT (gmw_cholesky (fun (_ _ : Fin 1) => (2 : ℝ))).2.1) x y
           - diagE (gmw_cholesky (fun (_ _ : Fin 1) => (2 : ℝ))).2.2 x y)| ≤ 1e-8)) :=
  ⟨le_rfl, fun _ _ => rfl, gmw_cholesky_correct le_rfl _ (fun _ _ => rfl)⟩

theorem gmwBeta_pos {n : ℕ} (A : Fin n → Fin n → ℝ) : 0 < gmwBeta A := by
  rw [gmwBeta]
  split_ifs
  · exact Real.sqrt_pos.2 (lt_of_lt_of_le _EPS_pos (le_max_right _ _))
  · exact Real.sqrt_pos.2 (lt_of_lt_of_le _EPS_pos (le_max_right _ _))

/-- C8: `delta = eps*max(gamma+xi, 1)`; for `n = 1` the explicit branch sets
`beta = sqrt(max(gamma, eps))`, and only for `n ≠ 1` is the general formula
with the division by `sqrt(n**2 - 1)` evaluated, so that division by zero
never arises; `beta` is strictly positive in every case, and on a
single-variable input `gmw_cholesky` completes, its factor entry being the
well-defined positive number `L[0,0] = sqrt(max(|A[0,0]|, delta))`. -/
theorem gmw_beta_branches {n : ℕ} (A : Fin n → Fin n → ℝ) :
    gmwDelta A = _EPS * max (gmwGamma A + gmwXi A) 1 ∧
    (n = 1 → gmwBeta A = Real.sqrt (max (gmwGamma A) _EPS)) ∧
    (n ≠ 1 → gmwBeta A
      = Real.sqrt (max (max (gmwGamma A) (gmwXi A / Real.sqrt ((n : ℝ) ^ 2 - 1))) _EPS)) ∧
    0 < gmwBeta A ∧
    (∀ B : Fin 1 → Fin 1 → ℝ,
      (gmw_cholesky B).2.1 0 0 = Real.sqrt (max |B 0 0| (gmwDelta B)) ∧
      0 < (gmw_cholesky B).2.1 0 0) := by
  refine ⟨rfl, fun h => ?_, fun h => ?_, gmwBeta_pos A, fun B => ?_⟩
  · rw [gmwBeta, if_pos h]
  · rw [gmwBeta, if_neg h]
  · have hstep : (gmw_cholesky B).2.1 0 0
        = Real.sqrt (gmwD (gmwBeta B) (gmwDelta B) B 0) := rfl
    have hth : gmwTheta B (0 : Fin 1) = 0 := rfl
    have hD : gmwD (gmwBeta B) (gmwDelta B) B 0 = max |B 0 0| (gmwDelta B) := by
      rw [gmwD, hth, zero_div, zero_pow (by norm_num : (2 : ℕ) ≠ 0),
        max_eq_left (abs_nonneg (B 0 0))]
    refine ⟨by rw [hstep, hD], ?_⟩
    rw [hstep, hD]
    exact Real.sqrt_pos.2 (lt_of_lt_of_le (gmwDelta_pos B) (le_max_right _ _))

/-- Witness for C8 at `n = 2`, `A = [[1, 0], [0, 1]]` (for the two branch
statements) — the `n = 1` completion conjunct is itself universally closed. -/
theorem gmw_beta_branches_witness :
    gmwDelta (fun (_ _ : Fin 2) => (0 : ℝ)) = _EPS
      * max (gmwGamma (fun (_ _ : Fin 2) => (0 : ℝ)) + gmwXi (fun (_ _ : Fin 2) => (0 : ℝ))) 1 ∧
    ((2 : ℕ) ≠ 1 ∧ gmwBeta (fun (_ _ : Fin 2) => (0 : ℝ))
      = Real.sqrt (max (max (gmwGamma (fun (_ _ : Fin 2) => (0 : ℝ)))
          (gmwXi (fun (_ _ : Fin 2) => (0 : ℝ)) / Real.sqrt (((2 : ℕ) : ℝ) ^ 2 - 1))) _EPS)) ∧
    0 < gmwBeta (fun (_ _ : Fin 2) => (0 : ℝ)) := by
  obtain ⟨h1, -, h3, h4, -⟩ := gmw_beta_branches (fun (_ _ : Fin 2) => (0 : ℝ))
  exact ⟨h1, ⟨by norm_num, h3 (by norm_num)⟩, h4⟩

end GmwClaims

/-! ## The positive-definite case of the GMW factorization (C2) -/

section GmwPosDef

theorem gmwGamma_nonneg {n : ℕ} (A : Fin n → Fin n → ℝ) : 0 ≤ gmwGamma A := by
  rw [gmwGamma]
  refine foldl_pred (fun g i => max |A i i| g) (fun g => 0 ≤ g) (List.finRange n) 0 le_rfl ?_
  intro b i _ hb
  exact le_trans hb (le_max_right _ _)

theorem gmwGamma_ge {n : ℕ} (A : Fin n → Fin n → ℝ) (i : Fin n) :
    |A i i| ≤ gmwGamma A := by
  rw [gmwGamma]
  exact foldl_measure_mem (fun g k => max |A k k| g) (fun g => g) (fun k => |A k k|)
    (List.finRange n) 0 (fun t x _ => le_max_right _ _) (fun t x _ => le_max_left _ _)
    i (List.mem_finRange i)

theorem gmwTheta_nonneg {n : ℕ} (a : Fin n → Fin n → ℝ) (j : Fin n) :
    0 ≤ gmwTheta a j := by
  rw [gmwTheta]
  refine foldl_pred (fun t i => max t |a j i|) (fun t => 0 ≤ t) _ 0 le_rfl ?_
  intro b i _ hb
  exact le_trans hb (le_max_left _ _)

theorem gmwTheta_le {n : ℕ} (a : Fin n → Fin n → ℝ) (j : Fin n) (B : ℝ) (hB : 0 ≤ B)
    (h : ∀ i : Fin n, j < i → |a j i| ≤ B) : gmwTheta a j ≤ B := by
  rw [gmwTheta]
  refine foldl_pred (fun t i => max t |a j i|) (fun t => t ≤ B) _ 0 hB ?_
  intro b i hi hb
  have hji : j < i := by simpa using (List.mem_filter.1 hi).2
  exact max_le hb (h i hji)

theorem gmwBeta_sq_ge {n : ℕ} (A : Fin n → Fin n → ℝ) :
    gmwGamma A ≤ gmwBeta A * gmwBeta A := by
  rw [gmwBeta]
  split_ifs
  · rw [Real.mul_self_sqrt (le_trans _EPS_pos.le (le_max_right _ _))]
    exact le_max_left _ _
  · rw [Real.mul_self_sqrt (le_trans _EPS_pos.le (le_max_right _ _))]
    exact le_trans (le_max_left _ _) (le_max_left _ _)

theorem gmwPivot_max {n : ℕ} (a : Fin n → Fin n → ℝ) (j : Fin n) (i : Fin n) (hi : j ≤ i) :
    |a i i| ≤ |a (gmwPivot a j) (gmwPivot a j)| := by
  rw [gmwPivot]
  have hkeep : ∀ (t : Fin n) (x : Fin n),
      x ∈ (List.finRange n).filter (fun k => j < k) →
      |a t t| ≤ |a ((fun q k => if |a k k| ≥ |a q q| then k else q) t x)
        ((fun q k => if |a k k| ≥ |a q q| then k else q) t x)| := by
    intro t x _
    show |a t t| ≤ |a (if |a x x| ≥ |a t t| then x else t) (if |a x x| ≥ |a t t| then x else t)|
    by_cases hc : |a x x| ≥ |a t t|
    · rw [if_pos hc]; exact hc
    · rw [if_neg hc]
  rcases eq_or_lt_of_le hi with rfl | hlt
  · exact foldl_measure_init (fun q k => if |a k k| ≥ |a q q| then k else q)
      (fun q => |a q q|) _ j hkeep
  · refine foldl_measure_mem (fun q k => if |a k k| ≥ |a q q| then k else q)
      (fun q => |a q q|) (fun k => |a k k|) _ j hkeep ?_ i ?_
    · intro t x _
      show |a x x| ≤ |a (if |a x x| ≥ |a t t| then x else t) (if |a x x| ≥ |a t t| then x else t)|
      by_cases hc : |a x x| ≥ |a t t|
      · rw [if_pos hc]
      · rw [if_neg hc]; exact le_of_lt (lt_of_not_ge hc)
    · exact List.mem_filter.2 ⟨List.mem_finRange i, by simpa using hlt⟩

theorem QF_swap {n : ℕ} (B : Fin n → Fin n → ℝ) (s : Equiv.Perm (Fin n)) (x : Fin n → ℝ) :
    ∑ i, ∑ k, x i * B (s i) (s k) * x k
      = ∑ i, ∑ k, x (s.symm i) * B i k * x (s.symm k) := by
  have inner : ∀ i : Fin n, (∑ k, x i * B (s i) (s k) * x k)
      = ∑ v, x i * B (s i) v * x (s.symm v) := by
    intro i
    refine Fintype.sum_equiv s _ _ fun k => ?_
    rw [Equiv.symm_apply_apply]
  rw [Finset.sum_congr rfl (fun i _ => inner i)]
  refine Fintype.sum_equiv s _ _ fun i => ?_
  rw [Equiv.symm_apply_apply]

theorem QF_deltas {n : ℕ} (B : Fin n → Fin n → ℝ) (p q : Fin n) :
    ∑ u, ∑ v, (if u = p then (1 : ℝ) else 0) * B u v * (if v = q then 1 else 0) = B p q := by
  have inner : ∀ u : Fin n,
      (∑ v, (if u = p then (1 : ℝ) else 0) * B u v * (if v = q then 1 else 0))
      = if u = p then B u q else 0 := by
    intro u
    by_cases hu : u = p
    · have hterm : ∀ v : Fin n,
          (if u = p then (1 : ℝ) else 0) * B u v * (if v = q then 1 else 0)
          = if v = q then B u v else 0 := by
        intro v
        by_cases hv : v = q
        · rw [if_pos hu, if_pos hv, if_pos hv]; ring
        · rw [if_neg hv, if_neg hv]; ring
      rw [Finset.sum_congr rfl fun v _ => hterm v,
        Finset.sum_ite_eq' Finset.univ q (fun v => B u v), if_pos hu]
      simp
    · have hsum : (∑ v, (if u = p then (1 : ℝ) else 0) * B u v * (if v = q then 1 else 0))
          = 0 :=
        Finset.sum_eq_zero fun v _ => by rw [if_neg hu]; ring
      rw [hsum, if_neg hu]
  rw [Finset.sum_congr rfl fun u _ => inner u,
    Finset.sum_ite_eq' Finset.univ p (fun u => B u q)]
  simp

theorem QF_two {n : ℕ} (B : Fin n → Fin n → ℝ) (p q : Fin n) (c d : ℝ)
    (x : Fin n → ℝ)
    (hx : ∀ u, x u = c * (if u = p then (1 : ℝ) else 0) + d * (if u = q then 1 else 0)) :
    ∑ u, ∑ v, x u * B u v * x v
      = c * c * B p p + c * d * B p q + d * c * B q p + d * d * B q q := by
  have hpt : ∀ u v : Fin n, x u * B u v * x v
      = c * c * ((if u = p then (1 : ℝ) else 0) * B u v * (if v = p then 1 else 0))
        + c * d * ((if u = p then (1 : ℝ) else 0) * B u v * (if v = q then 1 else 0))
        + d * c * ((if u = q then (1 : ℝ) else 0) * B u v * (if v = p then 1 else 0))
        + d * d * ((if u = q then (1 : ℝ) else 0) * B u v * (if v = q then 1 else 0)) := by
    intro u v
    rw [hx u, hx v]
    ring
  rw [Finset.sum_congr rfl fun u _ => Finset.sum_congr rfl fun v _ => hpt u v]
  simp only [Finset.sum_add_distrib, ← Finset.mul_sum]
  rw [QF_deltas B p p, QF_deltas B p q, QF_deltas B q p, QF_deltas B q q]

theorem QF_update {n : ℕ} (B : Fin n → Fin n → ℝ) (hB : ∀ u v, B u v = B v u)
    (x : Fin n → ℝ) (j : Fin n) (hxj : x j = 0) (t : ℝ) :
    ∑ u, ∑ v, Function.update x j t u * B u v * Function.update x j t v
      = (∑ u, ∑ v, x u * B u v * x v) + (2 * t * ∑ i, x i * B j i) + t * t * B j j := by
  have hy : ∀ u, Function.update x j t u = x u + t * (if u = j then (1 : ℝ) else 0) := by
    intro u
    by_cases hu : u = j
    · subst hu; rw [Function.update_same, hxj, if_pos rfl]; ring
    · rw [Function.update_noteq hu, if_neg hu]; ring
  have hpt : ∀ u v : Fin n, Function.update x j t u * B u v * Function.update x j t v
      = x u * B u v * x v
        + t * ((if u = j then (1 : ℝ) else 0) * B u v * x v)
        + t * (x u * B u v * (if v = j then (1 : ℝ) else 0))
        + t * t * ((if u = j then (1 : ℝ) else 0) * B u v * (if v = j then 1 else 0)) := by
    intro u v
    rw [hy u, hy v]
    ring
  rw [Finset.sum_congr rfl fun u _ => Finset.sum_congr rfl fun v _ => hpt u v]
  simp only [Finset.sum_add_distrib, ← Finset.mul_sum]
  rw [QF_deltas B j j]
  have h1 : ∑ u, ∑ v, (if u = j then (1 : ℝ) else 0) * B u v * x v
      = ∑ v, B j v * x v := by
    have inner : ∀ u : Fin n, (∑ v, (if u = j then (1 : ℝ) else 0) * B u v * x v)
        = if u = j then ∑ v, B u v * x v else 0 := by
      intro u
      by_cases hu : u = j
      · have hsum : (∑ v, (if u = j then (1 : ℝ) else 0) * B u v * x v)
            = ∑ v, B u v * x v :=
          Finset.sum_congr rfl fun v _ => by rw [if_pos hu]; ring
        rw [hsum, if_pos hu]
      · have hsum : (∑ v, (if u = j then (1 : ℝ) else 0) * B u v * x v) = 0 :=
          Finset.sum_eq_zero fun v _ => by rw [if_neg hu]; ring
        rw [hsum, if_neg hu]
    rw [Finset.sum_congr rfl fun u _ => inner u,
      Finset.sum_ite_eq' Finset.univ j (fun u => ∑ v, B u v * x v)]
    simp
  have h2 : ∑ u, ∑ v, x u * B u v * (if v = j then (1 : ℝ) else 0)
      = ∑ u, x u * B u j := by
    refine Finset.sum_congr rfl fun u _ => ?_
    have hterm : ∀ v : Fin n, x u * B u v * (if v = j then (1 : ℝ) else 0)
        = if v = j then x u * B u v else 0 := by
      intro v
      by_cases hv : v = j
      · rw [if_pos hv, if_pos hv]; ring
      · rw [if_neg hv, if_neg hv]; ring
    rw [Finset.sum_congr rfl fun v _ => hterm v,
      Finset.sum_ite_eq' Finset.univ j (fun v => x u * B u v)]
    simp
  rw [h1, h2]
  have h3 : ∑ v, B j v * x v = ∑ i, x i * B j i :=
    Finset.sum_congr rfl fun v _ => by ring
  have h4 : ∑ u, x u * B u j = ∑ i, x i * B j i :=
    Finset.sum_congr rfl fun u _ => by rw [hB u j]
  rw [h3, h4]
  ring

theorem QF_gram_nonneg {n : ℕ} (r : Fin n → Fin n → ℝ) (z : Fin n → ℝ) :
    0 ≤ ∑ u, ∑ v, z u * (∑ l, r l u * r l v) * z v := by
  have h1 : ∀ u v : Fin n, z u * (∑ l, r l u * r l v) * z v
      = ∑ l, (r l u * z u) * (r l v * z v) := by
    intro u v
    rw [Finset.mul_sum, Finset.sum_mul]
    refine Finset.sum_congr rfl fun l _ => by ring
  rw [Finset.sum_congr rfl fun u (_ : u ∈ Finset.univ) =>
    Finset.sum_congr rfl fun v (_ : v ∈ Finset.univ) => h1 u v]
  have h2 : ∑ u : Fin n, ∑ v : Fin n, ∑ l : Fin n, (r l u * z u) * (r l v * z v)
      = ∑ l : Fin n, ∑ u : Fin n, ∑ v : Fin n, (r l u * z u) * (r l v * z v) := by
    rw [Finset.sum_congr rfl fun u (_ : u ∈ Finset.univ) => Finset.sum_comm]
    rw [Finset.sum_comm]
  rw [h2]
  refine Finset.sum_nonneg fun l _ => ?_
  have h3 : ∑ u : Fin n, ∑ v : Fin n, (r l u * z u) * (r l v * z v)
      = (∑ u : Fin n, r l u * z u) * (∑ v : Fin n, r l v * z v) :=
    (Finset.sum_mul_sum Finset.univ Finset.univ (fun u => r l u * z u)
      (fun v => r l v * z v)).symm
  rw [h3]
  exact mul_self_nonneg _

theorem gmwSwapPD {n : ℕ} (A : Fin n → Fin n → ℝ) (j q : Fin n) (hq : j ≤ q)
    (st : GmwState n) (hpd : GmwPD A j.val st) : GmwPD A j.val (gmwSwap st j q) := by
  obtain ⟨hp, hdg, heb⟩ := hpd
  rw [GmwPD]
  simp only [gmwSwap_a, gmwSwap_e]
  refine ⟨?_, ?_, heb⟩
  · intro x hx hsupp
    have hQ : ∑ i, ∑ k, x i * st.a (Equiv.swap j q i) (Equiv.swap j q k) * x k
        = ∑ i, ∑ k, x ((Equiv.swap j q).symm i) * st.a i k * x ((Equiv.swap j q).symm k) :=
      QF_swap st.a (Equiv.swap j q) x
    rw [hQ, Equiv.symm_swap]
    refine hp (fun u => x (Equiv.swap j q u)) ?_ ?_
    · intro hzero
      apply hx
      funext w
      have hcf := congrFun hzero (Equiv.swap j q w)
      simp only at hcf
      rwa [Equiv.swap_apply_self] at hcf
    · intro i hi
      show x (Equiv.swap j q i) = 0
      rw [swap_fix_lt j q i hq hi]
      exact hsupp i hi
  · intro i hi
    have hswap : (j : ℕ) ≤ ((Equiv.swap j q i : Fin n) : ℕ) :=
      not_lt.1 (fun hcon => not_lt.2 hi ((swap_lt_iff j q i hq).1 hcon))
    exact hdg _ hswap

theorem gmwElimPD {n : ℕ} (A : Fin n → Fin n → ℝ) (st : GmwState n) (j : Fin n)
    (hsym : ∀ x y, st.a x y = st.a y x)
    (hpd : GmwPD A j.val st)
    (hpiv : ∀ i : Fin n, j ≤ i → |st.a i i| ≤ |st.a j j|) :
    GmwPD A (j.val + 1) (gmwElim (gmwBeta A) (gmwDelta A) st j) := by
  obtain ⟨hp, hdg, heb⟩ := hpd
  have hone_ne : (fun u : Fin n => if u = j then (1 : ℝ) else 0) ≠ 0 := by
    intro hzero
    have hcf := congrFun hzero j
    simp at hcf
  have hone_supp : ∀ i : Fin n, (i : ℕ) < j.val → (if i = j then (1 : ℝ) else 0) = 0 := by
    intro i hi
    rw [if_neg (fun hh : i = j => by rw [hh] at hi; exact lt_irrefl _ hi)]
  have hajj : 0 < st.a j j := by
    have h0 := hp _ hone_ne hone_supp
    rwa [QF_deltas st.a j j] at h0
  have haii_pos : ∀ i : Fin n, j < i → 0 < st.a i i := by
    intro i hij
    have hne : (fun u : Fin n => if u = i then (1 : ℝ) else 0) ≠ 0 := by
      intro hzero
      have hcf := congrFun hzero i
      simp at hcf
    have hsupp : ∀ u : Fin n, (u : ℕ) < j.val → (if u = i then (1 : ℝ) else 0) = 0 := by
      intro u hu
      rw [if_neg (fun hh : u = i => by
        rw [hh] at hu
        have hji := Fin.lt_def.1 hij
        omega)]
    have h0 := hp _ hne hsupp
    rwa [QF_deltas st.a i i] at h0
  have hminor : ∀ i : Fin n, j < i → st.a j i * st.a j i < st.a j j * st.a i i := by
    intro i hij
    have hji : j ≠ i := ne_of_lt hij
    have hx : ∀ u : Fin n,
        (if u = j then -(st.a j i) else if u = i then st.a j j else 0)
        = -(st.a j i) * (if u = j then (1 : ℝ) else 0)
          + st.a j j * (if u = i then 1 else 0) := by
      intro u
      by_cases h1 : u = j
      · rw [if_pos h1, if_pos h1, if_neg (fun hh : u = i => hji (h1 ▸ hh))]
        ring
      · rw [if_neg h1, if_neg h1]
        by_cases h2 : u = i
        · rw [if_pos h2, if_pos h2]; ring
        · rw [if_neg h2, if_neg h2]; ring
    have hne : (fun u : Fin n => if u = j then -(st.a j i) else if u = i then st.a j j else 0)
        ≠ 0 := by
      intro hzero
      have hcf : (if i = j then -(st.a j i) else if i = i then st.a j j else 0) = 0 :=
        congrFun hzero i
      rw [if_neg (fun hh : i = j => hji hh.symm), if_pos rfl] at hcf
      exact absurd hcf (ne_of_gt hajj)
    have hsupp : ∀ u : Fin n, (u : ℕ) < j.val →
        (if u = j then -(st.a j i) else if u = i then st.a j j else 0) = 0 := by
      intro u hu
      rw [if_neg (fun hh : u = j => by rw [hh] at hu; exact lt_irrefl _ hu),
        if_neg (fun hh : u = i => by
          rw [hh] at hu
          have hji2 := Fin.lt_def.1 hij
          omega)]
    have h0 := hp _ hne hsupp
    rw [QF_two st.a j i (-(st.a j i)) (st.a j j) _ hx] at h0
    have hkey : -(st.a j i) * -(st.a j i) * st.a j j
          + -(st.a j i) * st.a j j * st.a j i
          + st.a j j * -(st.a j i) * st.a i j
          + st.a j j * st.a j j * st.a i i
        = st.a j j * (st.a j j * st.a i i - st.a j i * st.a j i) := by
      rw [hsym i j]
      ring
    rw [hkey] at h0
    have hfac : 0 < st.a j j * st.a i i - st.a j i * st.a j i := by
      by_contra hcon
      push_neg at hcon
      nlinarith [hajj, h0]
    linarith
  have habs_off : ∀ i : Fin n, j < i → |st.a j i| ≤ st.a j j := by
    intro i hij
    have h1 := hminor i hij
    have h2 : st.a i i ≤ st.a j j := by
      have hpiv2 := hpiv i (le_of_lt hij)
      rw [abs_of_pos (haii_pos i hij), abs_of_pos hajj] at hpiv2
      exact hpiv2
    have h3 : st.a j i * st.a j i < st.a j j * st.a j j :=
      lt_of_lt_of_le h1 (mul_le_mul_of_nonneg_left h2 hajj.le)
    have h4 : |st.a j i| ≤ |st.a j j| := by
      rw [← Real.sqrt_mul_self_eq_abs (st.a j i), ← Real.sqrt_mul_self_eq_abs (st.a j j)]
      exact Real.sqrt_le_sqrt h3.le
    rwa [abs_of_pos hajj] at h4
  have htheta : gmwTheta st.a j ≤ st.a j j :=
    gmwTheta_le st.a j (st.a j j) hajj.le habs_off
  have hbeta2 : st.a j j ≤ gmwBeta A * gmwBeta A :=
    le_trans (hdg j le_rfl) (gmwBeta_sq_ge A)
  have hb2pos : 0 < gmwBeta A * gmwBeta A := mul_pos (gmwBeta_pos A) (gmwBeta_pos A)
  have hfrac : (gmwTheta st.a j / gmwBeta A) ^ 2 ≤ st.a j j := by
    rw [div_pow, div_le_iff (by rw [pow_two]; exact hb2pos)]
    have hθ := gmwTheta_nonneg st.a j
    have h5 : gmwTheta st.a j ^ 2 ≤ st.a j j ^ 2 := pow_le_pow_left hθ htheta 2
    have h6 : st.a j j ^ 2 ≤ st.a j j * gmwBeta A ^ 2 := by
      rw [pow_two, pow_two]
      exact mul_le_mul_of_nonneg_left hbeta2 hajj.le
    linarith
  have hD_le : gmwD (gmwBeta A) (gmwDelta A) st.a j ≤ max (st.a j j) (gmwDelta A) := by
    rw [gmwD]
    refine max_le (max_le ?_ ?_) (le_max_right _ _)
    · rw [abs_of_pos hajj]; exact le_max_left _ _
    · exact le_trans hfrac (le_max_left _ _)
  have hD_ge : st.a j j ≤ gmwD (gmwBeta A) (gmwDelta A) st.a j :=
    le_trans (le_abs_self _) (le_trans (le_max_left _ _) (le_max_left _ _))
  have hD_pos : 0 < gmwD (gmwBeta A) (gmwDelta A) st.a j := lt_of_lt_of_le hajj hD_ge
  rw [GmwPD]
  simp only [gmwElim_a, gmwElim_r, gmwElim_e]
  refine ⟨?_, ?_, ?_⟩
  · -- the trailing block stays positive definite
    intro x hx hsupp
    have hxj : x j = 0 := hsupp j (by omega)
    have hpt : ∀ i k : Fin n,
        x i * (if j < i ∧ j < k
            then st.a (min i k) (max i k)
              - gmwRj (gmwBeta A) (gmwDelta A) st j i * gmwRj (gmwBeta A) (gmwDelta A) st j k
            else st.a i k) * x k
        = x i * st.a i k * x k
          - (x i * st.a j i) * (x k * st.a j k) / gmwD (gmwBeta A) (gmwDelta A) st.a j := by
      intro i k
      by_cases hxi : x i = 0
      · rw [hxi]; ring
      · by_cases hxk : x k = 0
        · rw [hxk]; ring
        · have hi : j < i := by
            rcases lt_or_le j i with hh | hh
            · exact hh
            · exact absurd (hsupp i (by have := Fin.le_def.1 hh; omega)) hxi
          have hk : j < k := by
            rcases lt_or_le j k with hh | hh
            · exact hh
            · exact absurd (hsupp k (by have := Fin.le_def.1 hh; omega)) hxk
          have hmm : st.a (min i k) (max i k) = st.a i k := by
            rcases le_total i k with hik | hik
            · rw [min_eq_left hik, max_eq_right hik]
            · rw [min_eq_right hik, max_eq_left hik]
              exact hsym k i
          have hri : gmwRj (gmwBeta A) (gmwDelta A) st j i
              = st.a j i / Real.sqrt (gmwD (gmwBeta A) (gmwDelta A) st.a j) := by
            rw [gmwRj, if_neg (ne_of_gt hi), if_pos hi]
          have hrk : gmwRj (gmwBeta A) (gmwDelta A) st j k
              = st.a j k / Real.sqrt (gmwD (gmwBeta A) (gmwDelta A) st.a j) := by
            rw [gmwRj, if_neg (ne_of_gt hk), if_pos hk]
          rw [if_pos ⟨hi, hk⟩, hmm, hri, hrk, div_mul_div_comm,
            Real.mul_self_sqrt hD_pos.le]
          ring
    rw [Finset.sum_congr rfl fun i (_ : i ∈ Finset.univ) =>
      Finset.sum_congr rfl fun k (_ : k ∈ Finset.univ) => hpt i k]
    rw [Finset.sum_congr rfl fun i (_ : i ∈ Finset.univ) =>
      Finset.sum_sub_distrib (s := Finset.univ), Finset.sum_sub_distrib]
    have hG : ∑ i, ∑ k, (x i * st.a j i) * (x k * st.a j k)
          / gmwD (gmwBeta A) (gmwDelta A) st.a j
        = (∑ i, x i * st.a j i) * (∑ i, x i * st.a j i)
          / gmwD (gmwBeta A) (gmwDelta A) st.a j := by
      rw [Finset.sum_mul_sum Finset.univ Finset.univ (fun i => x i * st.a j i)
        (fun k => x k * st.a j k), Finset.sum_div]
      refine Finset.sum_congr rfl fun i _ => ?_
      rw [Finset.sum_div]
    rw [hG]
    have hupdate := QF_update st.a hsym x j hxj
      (-((∑ i, x i * st.a j i) / st.a j j))
    have hyne : Function.update x j (-((∑ i, x i * st.a j i) / st.a j j)) ≠ 0 := by
      obtain ⟨w, hw⟩ := Function.ne_iff.1 hx
      have hwj : w ≠ j := by
        intro hh
        rw [hh] at hw
        exact hw hxj
      intro hzero
      have hcf := congrFun hzero w
      rw [Function.update_noteq hwj] at hcf
      exact hw hcf
    have hysupp : ∀ i : Fin n, (i : ℕ) < j.val →
        Function.update x j (-((∑ i, x i * st.a j i) / st.a j j)) i = 0 := by
      intro i hi
      rw [Function.update_noteq (fun hh : i = j => by
        rw [hh] at hi; exact lt_irrefl _ hi)]
      exact hsupp i (by omega)
    have hQy := hp _ hyne hysupp
    rw [hupdate] at hQy
    have hval : (2 * (-((∑ i, x i * st.a j i) / st.a j j)) * ∑ i, x i * st.a j i)
          + (-((∑ i, x i * st.a j i) / st.a j j))
            * (-((∑ i, x i * st.a j i) / st.a j j)) * st.a j j
        = -((∑ i, x i * st.a j i) * (∑ i, x i * st.a j i) / st.a j j) := by
      field_simp
      ring
    have hdiv : (∑ i, x i * st.a j i) * (∑ i, x i * st.a j i)
          / gmwD (gmwBeta A) (gmwDelta A) st.a j
        ≤ (∑ i, x i * st.a j i) * (∑ i, x i * st.a j i) / st.a j j :=
      div_le_div_of_nonneg_left (mul_self_nonneg _) hajj hD_ge
    linarith
  · -- the trailing diagonal stays bounded by gamma
    intro i hi
    have hij : j < i := Fin.lt_def.2 (by omega)
    rw [if_pos ⟨hij, hij⟩, min_self, max_self]
    have hsq := mul_self_nonneg (gmwRj (gmwBeta A) (gmwDelta A) st j i)
    have hdgi := hdg i (by omega)
    linarith
  · -- every processed shift is at most delta
    intro l hl
    by_cases hlj : l = j
    · subst hlj
      rw [Function.update_same]
      have h2 : max (st.a l l) (gmwDelta A) ≤ st.a l l + gmwDelta A := by
        refine max_le ?_ ?_
        · have := gmwDelta_pos A
          linarith
        · linarith
      have h1 := hD_le
      linarith
    · rw [Function.update_noteq hlj]
      have hv : (l : ℕ) ≠ (j : ℕ) := fun hh => hlj (Fin.ext hh)
      exact heb l (by omega)

theorem gmwStepPD {n : ℕ} (A : Fin n → Fin n → ℝ) (j : Fin n) (st : GmwState n)
    (h : GmwInv A j.val st ∧ GmwPD A j.val st) :
    GmwInv A (j.val + 1) (gmwStep (gmwBeta A) (gmwDelta A) st j)
      ∧ GmwPD A (j.val + 1) (gmwStep (gmwBeta A) (gmwDelta A) st j) := by
  obtain ⟨hinv, hpd⟩ := h
  refine ⟨gmwStep_inv A _ _ (gmwDelta_pos A) j st hinv, ?_⟩
  rw [gmwStep]
  by_cases hq : gmwPivot st.a j ≠ j
  · rw [if_pos hq]
    have hge := gmwPivot_ge st.a j
    refine gmwElimPD A _ j ?_ ?_ ?_
    · exact (gmwSwap_inv A j _ hge st hinv).1
    · exact gmwSwapPD A j _ hge st hpd
    · intro i hi
      have ha := gmwSwap_a st j (gmwPivot st.a j)
      rw [ha]
      show |st.a (Equiv.swap j (gmwPivot st.a j) i) (Equiv.swap j (gmwPivot st.a j) i)|
        ≤ |st.a (Equiv.swap j (gmwPivot st.a j) j) (Equiv.swap j (gmwPivot st.a j) j)|
      rw [Equiv.swap_apply_left]
      have hgeswap : j ≤ Equiv.swap j (gmwPivot st.a j) i := by
        have hval : (j : ℕ) ≤ ((Equiv.swap j (gmwPivot st.a j) i : Fin n) : ℕ) :=
          not_lt.1 (fun hcon =>
            not_lt.2 (Fin.le_def.1 hi) ((swap_lt_iff j _ i hge).1 hcon))
        exact Fin.le_def.2 hval
      exact gmwPivot_max st.a j _ hgeswap
  · rw [if_neg hq]
    push_neg at hq
    refine gmwElimPD A st j hinv.1 hpd ?_
    intro i hi
    have hm := gmwPivot_max st.a j i hi
    rwa [hq] at hm

theorem gmw_pd_invariants {n : ℕ} (A : Fin n → Fin n → ℝ)
    (hsym : ∀ i k, A i k = A k i) (hpdA : PosDefQF A) :
    GmwInv A n (gmwFinal A) ∧ GmwPD A n (gmwFinal A) := by
  refine finRange_foldl_inv (gmwStep (gmwBeta A) (gmwDelta A))
    (fun j st => GmwInv A j st ∧ GmwPD A j st)
    (fun j st h => gmwStepPD A j st h) (gmwInit A)
    ⟨gmwInv_init A hsym, ?_, ?_, ?_⟩
  · intro x hx _
    exact hpdA x hx
  · intro i _
    exact le_trans (le_abs_self _) (gmwGamma_ge A i)
  · intro l hl
    exact absurd hl (Nat.not_lt_zero _)

theorem gmw_indefinite_shift {n : ℕ} (A : Fin n → Fin n → ℝ)
    (hsym : ∀ i k, A i k = A k i)
    (hindef : ∃ w : Fin n → ℝ, ∑ i, ∑ k, w i * A i k * w k < 0) :
    ∃ l : Fin n, 0 < (gmw_cholesky A).2.2 l := by
  obtain ⟨w, hw⟩ := hindef
  by_contra hcon
  push_neg at hcon
  have hinv : GmwInv A n (gmwFinal A) :=
    finRange_foldl_inv (gmwStep (gmwBeta A) (gmwDelta A)) (GmwInv A)
      (fun j s hs => gmwStep_inv A _ _ (gmwDelta_pos A) j s hs) _ (gmwInv_init A hsym)
  obtain ⟨hsymf, ⟨σ, hP, hfact⟩, hrz, hrt, hrd, hep⟩ := hinv
  have he0 : ∀ l : Fin n, (gmwFinal A).e l = 0 :=
    fun l => le_antisymm (hcon l) (hep l l.isLt)
  have hfact2 : ∀ x y : Fin n, A (σ.symm x) (σ.symm y)
      = ∑ l, (gmwFinal A).r l x * (gmwFinal A).r l y := by
    intro x y
    have H := hfact x y
    rw [if_neg (fun hh : n ≤ (x : ℕ) ∧ n ≤ (y : ℕ) => absurd x.isLt (not_lt.2 hh.1)),
      Finset.sum_congr rfl (fun (l : Fin n) (_ : l ∈ Finset.univ) => if_pos l.isLt)] at H
    by_cases hxy : x = y ∧ (x : ℕ) < n
    · rw [if_pos hxy, he0 x] at H
      linarith
    · rw [if_neg hxy] at H
      linarith
  have hreindex : ∑ i, ∑ k, w i * A i k * w k
      = ∑ u, ∑ v, w (σ.symm u) * A (σ.symm u) (σ.symm v) * w (σ.symm v) := by
    have h1 := QF_swap (fun u v => A (σ.symm u) (σ.symm v)) σ w
    have h2 : ∑ i, ∑ k, w i * A i k * w k
        = ∑ i, ∑ k, w i * A (σ.symm (σ i)) (σ.symm (σ k)) * w k := by
      refine Finset.sum_congr rfl fun i _ => Finset.sum_congr rfl fun k _ => ?_
      rw [Equiv.symm_apply_apply, Equiv.symm_apply_apply]
    rw [h2]
    exact h1
  have h3 : ∑ u, ∑ v, w (σ.symm u) * A (σ.symm u) (σ.symm v) * w (σ.symm v)
      = ∑ u, ∑ v, w (σ.symm u)
          * (∑ l, (gmwFinal A).r l u * (gmwFinal A).r l v) * w (σ.symm v) := by
    refine Finset.sum_congr rfl fun u _ => Finset.sum_congr rfl fun v _ => ?_
    rw [hfact2 u v]
  have h4 := QF_gram_nonneg (gmwFinal A).r (fun u => w (σ.symm u))
  rw [hreindex, h3] at hw
  exact absurd hw (not_lt.2 h4)

theorem A3_symm : ∀ i k : Fin 3, A3 i k = A3 k i := by
  intro i k
  fin_cases i <;> fin_cases k <;> norm_num [A3]

theorem A3_indef : ∃ w : Fin 3 → ℝ, ∑ i, ∑ k, w i * A3 i k * w k < 0 := by
  refine ⟨fun u => if u = 2 then (1 : ℝ) else 0, ?_⟩
  rw [QF_deltas A3 2 2]
  norm_num [A3]

/-- C2: for a strictly positive definite symmetric `A`, every shift `e[j]`
returned by `gmw_cholesky` is numerically zero — `0 ≤ e[j] ≤ delta`, where
`delta = eps*max(gamma+xi,1)` is the machine-epsilon-scale threshold of the
algorithm — hence `L` (lower triangular with positive diagonal, by C1's
theorem) is an exact Cholesky factor of a matrix within `delta` of the
permuted input: `|(L*L.T - P.T*A*P)[x,y]| ≤ delta` entrywise.  Conversely,
on the indefinite example `A3 = [[4,2,1],[2,6,3],[1,3,-0.004]]` the returned
shift vector has at least one strictly positive entry, and the factorization
identity holds within `1e-6` (it holds exactly in the real model). -/
theorem gmw_pd_passthrough_and_example {n : ℕ} (A : Fin n → Fin n → ℝ)
    (hsym : ∀ i k, A i k = A k i) (hpdA : PosDefQF A) :
    (∀ l : Fin n, 0 ≤ (gmw_cholesky A).2.2 l ∧ (gmw_cholesky A).2.2 l ≤ gmwDelta A) ∧
    (∀ x y : Fin n,
      |matMul (gmw_cholesky A).2.1 (matT (gmw_cholesky A).2.1) x y
        - matMul (matT (gmw_cholesky A).1) (matMul A (gmw_cholesky A).1) x y| ≤ gmwDelta A) ∧
    (∃ l : Fin 3, 0 < (gmw_cholesky A3).2.2 l) ∧
    (∀ x y : Fin 3,
      |matMul (matT (gmw_cholesky A3).1) (matMul A3 (gmw_cholesky A3).1) x y
        - (matMul (gmw_cholesky A3).2.1 (matT (gmw_cholesky A3).2.1) x y
          - diagE (gmw_cholesky A3).2.2 x y)| ≤ 1e-6) := by
  obtain ⟨hinv, hpd⟩ := gmw_pd_invariants A hsym hpdA
  have hbound : ∀ l : Fin n,
      0 ≤ (gmw_cholesky A).2.2 l ∧ (gmw_cholesky A).2.2 l ≤ gmwDelta A := by
    intro l
    exact ⟨hinv.2.2.2.2.2 l l.isLt, hpd.2.2 l l.isLt⟩
  refine ⟨hbound, ?_, gmw_indefinite_shift A3 A3_symm A3_indef, ?_⟩
  · intro x y
    have hid := (gmw_main A hsym).2.2.2.2 x y
    have hdiag : matMul (gmw_cholesky A).2.1 (matT (gmw_cholesky A).2.1) x y
        - matMul (matT (gmw_cholesky A).1) (matMul A (gmw_cholesky A).1) x y
        = diagE (gmw_cholesky A).2.2 x y := by
      rw [hid]; ring
    rw [hdiag, diagE]
    by_cases hxy : x = y
    · rw [if_pos hxy]
      rw [abs_of_nonneg (hbound x).1]
      exact (hbound x).2
    · rw [if_neg hxy, abs_zero]
      exact (gmwDelta_pos A).le
  · intro x y
    have hid := (gmw_main A3 A3_symm).2.2.2.2 x y
    rw [hid, sub_self, abs_zero]
    norm_num

/-- Witness for C2 at the strictly positive definite `1 × 1` matrix `[[1]]`. -/
theorem gmw_pd_passthrough_and_example_witness :
    ((∀ i k : Fin 1, (fun (_ _ : Fin 1) => (1 : ℝ)) i k = (fun (_ _ : Fin 1) => (1 : ℝ)) k i) ∧
      PosDefQF (fun (_ _ : Fin 1) => (1 : ℝ))) ∧
    ((∀ l : Fin 1, 0 ≤ (gmw_cholesky (fun (_ _ : Fin 1) => (1 : ℝ))).2.2 l ∧
        (gmw_cholesky (fun (_ _ : Fin 1) => (1 : ℝ))).2.2 l
          ≤ gmwDelta (fun (_ _ : Fin 1) => (1 : ℝ))) ∧
     (∀ x y : Fin 1,
       |matMul (gmw_cholesky (fun (_ _ : Fin 1) => (1 : ℝ))).2.1
           (matT (gmw_cholesky (fun (_ _ : Fin 1) => (1 : ℝ))).2.1) x y
         - matMul (matT (gmw_cholesky (fun (_ _ : Fin 1) => (1 : ℝ))).1)
             (matMul (fun (_ _ : Fin 1) => (1 : ℝ))
               (gmw_cholesky (fun (_ _ : Fin 1) => (1 : ℝ))).1) x y|
         ≤ gmwDelta (fun (_ _ : Fin 1) => (1 : ℝ))) ∧
     (∃ l : Fin 3, 0 < (gmw_cholesky A3).2.2 l) ∧
     (∀ x y : Fin 3,
       |matMul (matT (gmw_cholesky A3).1) (matMul A3 (gmw_cholesky A3).1) x y
         - (matMul (gmw_cholesky A3).2.1 (matT (gmw_cholesky A3).2.1) x y
           - diagE (gmw_cholesky A3).2.2 x y)| ≤ 1e-6)) := by
  have hsym1 : ∀ i k : Fin 1,
      (fun (_ _ : Fin 1) => (1 : ℝ)) i k = (fun (_ _ : Fin 1) => (1 : ℝ)) k i :=
    fun _ _ => rfl
  have hpd1 : PosDefQF (fun (_ _ : Fin 1) => (1 : ℝ)) := by
    intro x hx
    have hx0 : x 0 ≠ 0 := by
      intro h0
      apply hx
      funext u
      show x u = 0
      rw [Subsingleton.elim u (0 : Fin 1)]
      exact h0
    have hsum : ∑ i, ∑ k, x i * (fun (_ _ : Fin 1) => (1 : ℝ)) i k * x k = x 0 * x 0 := by
      simp [Fin.sum_univ_one]
    rw [hsum]
    exact mul_self_pos.2 hx0
  exact ⟨⟨hsym1, hpd1⟩, gmw_pd_passthrough_and_example _ hsym1 hpd1⟩

end GmwPosDef

end ASAPy
